import Mathlib

/-!
Verification of the RAG-Chat retrieval core: a shallow embedding of the
chunking service, embedding client, sparse (BM25) search, hybrid rank
fusion, reranking agent and workflow orchestrator, with theorems settling
the specification claims.  Python floats are modelled as exact rationals
(`ℚ`) where only field arithmetic occurs, and as reals (`ℝ`) where square
roots are taken; external collaborators (the text splitter, the sentence
transformer, the vector store, the BM25 scoring library, the LLM stages)
are oracle parameters.
-/

namespace RAGChat

/-- Python's `str.strip()`: remove leading and trailing whitespace.
(Defined over the character list so that it evaluates in the kernel.) -/
def pyStrip (s : String) : String :=
  ⟨((s.data.dropWhile Char.isWhitespace).reverse.dropWhile Char.isWhitespace).reverse⟩

/-! ### Data model: chunks (src/backend/services/chunking_service.py) -/

/-- Chunk metadata dict as built by `ChunkingService` (`doc_id`, `filename`,
`file_type`, `chunk_index`, `page_number`, `total_chunks`,
`upload_timestamp`).  `page_number` is `None` for plain text;
`total_chunks` is `None` until back-filled. -/
structure ChunkMeta where
  doc_id : String
  filename : String
  file_type : String
  chunk_index : Nat
  page_number : Option Nat
  total_chunks : Option Nat
  upload_timestamp : String
deriving DecidableEq, Repr, Inhabited

/-- A chunk dict: `{'chunk_id': ..., 'content': ..., 'metadata': ...}`. -/
structure Chunk where
  chunk_id : String
  content : String
  metadata : ChunkMeta
deriving DecidableEq, Repr, Inhabited

/-- Document-level metadata handed to the chunker. -/
structure DocMeta where
  doc_id : String
  filename : String
  file_type : String
  upload_timestamp : String
deriving DecidableEq, Repr, Inhabited

/-! ### `ChunkingService._chunk_plain_text`

The recursive character splitter is an external collaborator
(`langchain.RecursiveCharacterTextSplitter`); it is passed in as the
oracle `split : String → List String`. -/

/-- Loop body of `_chunk_plain_text`: `for idx, chunk_text in
enumerate(text_chunks)`, skipping pieces whose stripped length is < 10,
and emitting `chunk_index = idx` (the *enumeration* index) and
`total_chunks = len(text_chunks)` (the *pre-filter* count). -/
def chunkPlainLoop (m : DocMeta) (total : Nat) : Nat → List String → List Chunk
  | _, [] => []
  | idx, t :: rest =>
    if (pyStrip t).length < 10 then chunkPlainLoop m total (idx + 1) rest
    else
      { chunk_id := m.doc_id ++ "_chunk_" ++ toString idx,
        content := pyStrip t,
        metadata :=
          { doc_id := m.doc_id, filename := m.filename, file_type := m.file_type,
            chunk_index := idx, page_number := none,
            total_chunks := some total,
            upload_timestamp := m.upload_timestamp } } :: chunkPlainLoop m total (idx + 1) rest

/-- `ChunkingService._chunk_plain_text(content, metadata)`. -/
def chunk_plain_text (split : String → List String) (content : String) (m : DocMeta) :
    List Chunk :=
  let text_chunks := split content
  chunkPlainLoop m text_chunks.length 0 text_chunks

/-! ### `ChunkingService.merge_small_chunks` -/

/-- The merged chunk flushed from the buffer:
`{'chunk_id': f"{buffer_metadata['doc_id']}_chunk_{len(merged)}",
'content': buffer, 'metadata': buffer_metadata}`. -/
def mkMergedChunk (pos : Nat) (buffer : String) (bm : ChunkMeta) : Chunk :=
  { chunk_id := bm.doc_id ++ "_chunk_" ++ toString pos,
    content := buffer, metadata := bm }

/-- The `for chunk in chunks` loop of `merge_small_chunks`, with the final
buffer flush (`if buffer and buffer_metadata`).  State: accumulated
`merged` list, string `buffer`, `buffer_metadata` (Python truthiness of a
string is non-emptiness).  When the buffer is non-empty its metadata is
always set, so the `none` fallback on flush is unreachable. -/
def mergeLoop (min_size : Nat) : List Chunk → List Chunk → String → Option ChunkMeta → List Chunk
  | [], merged, buffer, bufMeta =>
    match bufMeta with
    | some bm => if buffer = "" then merged else merged ++ [mkMergedChunk merged.length buffer bm]
    | none => merged
  | c :: rest, merged, buffer, bufMeta =>
    if c.content.length < min_size then
      if buffer = "" then
        mergeLoop min_size rest merged c.content (some c.metadata)
      else
        mergeLoop min_size rest merged (buffer ++ " " ++ c.content) bufMeta
    else
      if buffer = "" then
        mergeLoop min_size rest (merged ++ [c]) buffer bufMeta
      else
        match bufMeta with
        | some bm =>
            mergeLoop min_size rest ((merged ++ [mkMergedChunk merged.length buffer bm]) ++ [c]) "" none
        | none => mergeLoop min_size rest (merged ++ [c]) "" none

/-- The final pass of `merge_small_chunks`: `chunk['metadata']['chunk_index'] = idx;
chunk['metadata']['total_chunks'] = len(merged)`. -/
def renumberAux (total : Nat) : Nat → List Chunk → List Chunk
  | _, [] => []
  | i, c :: rest =>
    { c with metadata := { c.metadata with chunk_index := i, total_chunks := some total } }
      :: renumberAux total (i + 1) rest

/-- Re-number `chunk_index` `0..n-1` and stamp `total_chunks = n`. -/
def renumber (l : List Chunk) : List Chunk := renumberAux l.length 0 l

/-- `ChunkingService.merge_small_chunks(chunks, min_size=100)`. -/
def merge_small_chunks (chunks : List Chunk) (min_size : Nat) : List Chunk :=
  match chunks with
  | [] => []
  | _ => renumber (mergeLoop min_size chunks [] "" none)

/-! ### Spec-side description of `merge_small_chunks` (for the frame/merge claims) -/

/-- `isSmall min_size c`: the chunk is undersized (`len(content) < min_size`). -/
def isSmall (min_size : Nat) (c : Chunk) : Bool := c.content.length < min_size

/-- Partition a chunk list into the consecutive groups that
`merge_small_chunks` processes: a maximal run of undersized chunks forms
one group, every adequately sized chunk forms a singleton group. -/
def runsGroups (min_size : Nat) : List Chunk → List (List Chunk)
  | [] => []
  | c :: rest =>
    if c.content.length < min_size then
      (c :: rest.takeWhile (isSmall min_size))
        :: runsGroups min_size (rest.dropWhile (isSmall min_size))
    else
      [c] :: runsGroups min_size rest
termination_by l => l.length
decreasing_by
  · exact Nat.lt_succ_of_le (List.Sublist.length_le (List.dropWhile_sublist _))
  · exact Nat.lt_succ_self _

/-- The buffer contents accumulated over a run: the chunks' contents
joined with single spaces. -/
def joinRun : List Chunk → String
  | [] => ""
  | [c] => c.content
  | c :: d :: rest => c.content ++ " " ++ joinRun (d :: rest)

/-- The chunk emitted for one group at output position `pos`: an
adequately sized chunk passes through unchanged, a run of undersized
chunks becomes one merged chunk carrying the first member's metadata. -/
def emitGroup (min_size pos : Nat) : List Chunk → Chunk
  | [] => default
  | c :: g =>
    if c.content.length < min_size then mkMergedChunk pos (joinRun (c :: g)) c.metadata else c

/-- Emit all groups, numbering output positions from `pos`. -/
def groupsToChunks (min_size : Nat) : Nat → List (List Chunk) → List Chunk
  | _, [] => []
  | pos, g :: gs => emitGroup min_size pos g :: groupsToChunks min_size (pos + 1) gs

/-- Equality of all `ChunkMeta` fields except `chunk_index` and
`total_chunks` (the two fields the merge pass rewrites). -/
def metaSameExceptIndex (m1 m2 : ChunkMeta) : Prop :=
  m1.doc_id = m2.doc_id ∧ m1.filename = m2.filename ∧ m1.file_type = m2.file_type ∧
    m1.page_number = m2.page_number ∧ m1.upload_timestamp = m2.upload_timestamp

/-! ### Embedding service (src/backend/services/embedding_service.py)

The sentence-transformer model is the oracle `encode : String → List ℝ`;
`dim` is `settings.embedding_dimension`.  Python float arithmetic is
modelled as exact real arithmetic. -/

/-- `[0.0] * dim`. -/
def zeroVec (dim : Nat) : List ℝ := List.replicate dim 0

/-- Python truthiness test `not text or not text.strip()`. -/
def isBlank (text : String) : Bool := text = "" || pyStrip text = ""

/-- `EmbeddingService.embed_text`: zero vector for empty/whitespace-only
text, otherwise the model encoding. -/
def embed_text (encode : String → List ℝ) (dim : Nat) (text : String) : List ℝ :=
  if isBlank text then zeroVec dim else encode text

/-- `enumerate(l, n)`. -/
def enumFrom {α : Type} : Nat → List α → List (Nat × α)
  | _, [] => []
  | n, a :: l => (n, a) :: enumFrom (n + 1) l

/-- `EmbeddingService.embed_batch`: filter non-blank texts (keeping their
indices), encode them, then scatter the encodings back into a list of
zero vectors at the remembered indices (`zip(valid_indices, embeddings)`
followed by `result[idx] = embedding`). -/
def embed_batch (encode : String → List ℝ) (dim : Nat) (texts : List String) :
    List (List ℝ) :=
  if texts = [] then []
  else
    let valid := (enumFrom 0 texts).filter (fun p => !isBlank p.2)
    if valid = [] then List.replicate texts.length (zeroVec dim)
    else
      ((valid.map Prod.fst).zip (valid.map fun p => encode p.2)).foldl
        (fun res p => res.set p.1 p.2) (List.replicate texts.length (zeroVec dim))

/-- `np.dot` on equal-dimension vectors: sum of pointwise products. -/
def dotList : List ℝ → List ℝ → ℝ
  | a :: v1, b :: v2 => a * b + dotList v1 v2
  | _, _ => 0

/-- Sum of squares of the entries. -/
def sumSq (v : List ℝ) : ℝ := dotList v v

/-- `np.linalg.norm`: Euclidean norm. -/
noncomputable def npNorm (v : List ℝ) : ℝ := Real.sqrt (sumSq v)

open Classical in
/-- `EmbeddingService.similarity`: cosine similarity with an explicit
zero result when either norm is zero. -/
noncomputable def similarity (embedding1 embedding2 : List ℝ) : ℝ :=
  let dot_product := dotList embedding1 embedding2
  let norm1 := npNorm embedding1
  let norm2 := npNorm embedding2
  if norm1 = 0 ∨ norm2 = 0 then 0 else dot_product / (norm1 * norm2)

/-! ### Hybrid search (src/backend/services/hybrid_search.py)

Retrieval hits and reciprocal rank fusion.  Scores are exact rationals. -/

/-- A retrieval hit (`{'chunk_id', 'score', 'content', 'metadata'}`) as
returned by the vector store or by `_bm25_search`. -/
structure Hit where
  chunk_id : String
  score : ℚ
  content : String
  metadata : ChunkMeta
deriving DecidableEq, Repr, Inhabited

/-- An entry of the `fused_scores` dict (plus its key), as produced by
`_reciprocal_rank_fusion`.  Keys absent from a Python dict entry
(`sparse_rank`/`dense_score`/`sparse_score` on one-sided entries) are
`none`. -/
structure FusedEntry where
  chunk_id : String
  score : ℚ
  content : String
  metadata : ChunkMeta
  dense_rank : Option Nat
  sparse_rank : Option Nat
  dense_score : Option ℚ
  sparse_score : Option ℚ
deriving DecidableEq, Repr, Inhabited

/-- Insertion-ordered dict write `fused_scores[chunk_id] = entry`:
replace in place if the key exists, else append. -/
def setEntry : List FusedEntry → FusedEntry → List FusedEntry
  | [], e => [e]
  | x :: xs, e => if x.chunk_id = e.chunk_id then e :: xs else x :: setEntry xs e

/-- The dict entry written for a dense hit at 1-based `rank`. -/
def denseEntry (dense_weight : ℚ) (k rank : Nat) (h : Hit) : FusedEntry :=
  { chunk_id := h.chunk_id,
    score := dense_weight / ((k : ℚ) + rank),
    content := h.content, metadata := h.metadata,
    dense_rank := some rank, sparse_rank := none,
    dense_score := some h.score, sparse_score := none }

/-- The first loop of `_reciprocal_rank_fusion`:
`for rank, result in enumerate(dense_results, 1)`. -/
def addDenseAux (dense_weight : ℚ) (k : Nat) : Nat → List Hit → List FusedEntry → List FusedEntry
  | _, [], acc => acc
  | rank, h :: rest, acc =>
    addDenseAux dense_weight k (rank + 1) rest (setEntry acc (denseEntry dense_weight k rank h))

/-- Update applied to an existing entry when its `chunk_id` also appears
in the sparse list at 1-based `rank`. -/
def bumpSparse (sparse_weight : ℚ) (k rank : Nat) (h : Hit) (e : FusedEntry) : FusedEntry :=
  { e with score := e.score + sparse_weight / ((k : ℚ) + rank),
           sparse_rank := some rank, sparse_score := some h.score }

/-- The dict entry written for a hit appearing only in the sparse list. -/
def sparseOnlyEntry (sparse_weight : ℚ) (k rank : Nat) (h : Hit) : FusedEntry :=
  { chunk_id := h.chunk_id,
    score := sparse_weight / ((k : ℚ) + rank),
    content := h.content, metadata := h.metadata,
    dense_rank := none, sparse_rank := some rank,
    dense_score := none, sparse_score := some h.score }

/-- The second loop of `_reciprocal_rank_fusion`:
`for rank, result in enumerate(sparse_results, 1)`, updating the entry in
place when the key is present and appending otherwise. -/
def addSparseAux (sparse_weight : ℚ) (k : Nat) :
    Nat → List Hit → List FusedEntry → List FusedEntry
  | _, [], acc => acc
  | rank, h :: rest, acc =>
    addSparseAux sparse_weight k (rank + 1) rest
      (if acc.any (fun e => e.chunk_id = h.chunk_id) then
        acc.map (fun e =>
          if e.chunk_id = h.chunk_id then bumpSparse sparse_weight k rank h e else e)
      else acc ++ [sparseOnlyEntry sparse_weight k rank h])

/-- Descending order on fused scores (`sorted(..., key=score, reverse=True)`). -/
def scoreDesc (a b : FusedEntry) : Prop := b.score ≤ a.score

instance : DecidableRel scoreDesc :=
  fun a b => inferInstanceAs (Decidable (b.score ≤ a.score))

instance : IsTotal FusedEntry scoreDesc := ⟨fun a b => le_total b.score a.score⟩

instance : IsTrans FusedEntry scoreDesc := ⟨fun _ _ _ hab hbc => le_trans hbc hab⟩

/-- `HybridSearch._reciprocal_rank_fusion(dense_results, sparse_results,
dense_weight, sparse_weight, k)` (the source defaults `k` to 60): build
the insertion-ordered score dict from both ranked lists, then stable-sort
the entries by fused score, descending. -/
def reciprocal_rank_fusion (dense_results sparse_results : List Hit)
    (dense_weight sparse_weight : ℚ) (k : Nat) : List FusedEntry :=
  List.insertionSort scoreDesc
    (addSparseAux sparse_weight k 1 sparse_results
      (addDenseAux dense_weight k 1 dense_results []))

/-- The `chunk_id`s of a hit list, in order. -/
def hitIds (l : List Hit) : List String := l.map Hit.chunk_id

/-- The keys of the fused dict, in insertion order. -/
def entryIds (l : List FusedEntry) : List String := l.map FusedEntry.chunk_id

/-- 1-based rank of the first occurrence of `id` in a key list. -/
def rankIn : List String → String → Option Nat
  | [], _ => none
  | x :: xs, id => if x = id then some 1 else (rankIn xs id).map (· + 1)

/-- The partial RRF score a ranked key list contributes to `id`:
`weight / (k + rank)` if present, `0` if absent. -/
def wScore (weight : ℚ) (k : Nat) (ids : List String) (id : String) : ℚ :=
  match rankIn ids id with
  | some r => weight / ((k : ℚ) + r)
  | none => 0

/-- 0-based position and hit of the first occurrence of `id` in a hit
list (analysis helper for the sparse pass). -/
def findHit0 : List Hit → String → Option (Nat × Hit)
  | [], _ => none
  | h :: rest, id =>
    if h.chunk_id = id then some (0, h)
    else (findHit0 rest id).map (fun p => (p.1 + 1, p.2))

/-- The net effect of the sparse pass (starting at rank `n`) on one
existing dict entry: bump it if its key occurs in the sparse list, at the
rank of that occurrence. -/
def applySparse (sparse_weight : ℚ) (k n : Nat) (sparse : List Hit) (e : FusedEntry) :
    FusedEntry :=
  match findHit0 sparse e.chunk_id with
  | some (j, h) => bumpSparse sparse_weight k (n + j) h e
  | none => e

/-- The entries the sparse pass appends: one `sparseOnlyEntry` per sparse
hit whose key is not among `seen` (the dense keys). -/
def newSparse (sparse_weight : ℚ) (k : Nat) : Nat → List Hit → List String → List FusedEntry
  | _, [], _ => []
  | n, h :: rest, seen =>
    if h.chunk_id ∈ seen then newSparse sparse_weight k (n + 1) rest seen
    else sparseOnlyEntry sparse_weight k n h :: newSparse sparse_weight k (n + 1) rest seen

/-- The dict contents after the dense pass alone: one `denseEntry` per
dense hit, ranks counting from `n`. -/
def denseList (dense_weight : ℚ) (k : Nat) : Nat → List Hit → List FusedEntry
  | _, [] => []
  | n, h :: rest => denseEntry dense_weight k n h :: denseList dense_weight k (n + 1) rest

/-! ### BM25 sparse search (src/backend/services/hybrid_search.py)

`rank_bm25.BM25Okapi` is external; a built index is the oracle
`bm25_index : List String → List ℚ` mapping the tokenized query to
per-document scores. -/

/-- The searcher state held by `HybridSearch` (`bm25_index`,
`bm25_corpus`, `bm25_metadata`). -/
structure BM25State where
  bm25_index : Option (List String → List ℚ)
  bm25_corpus : List String
  bm25_metadata : List Chunk

/-- The state set up by `HybridSearch.__init__` (before any
`index_for_bm25` call): no index, empty corpus. -/
def initHybridState : BM25State :=
  { bm25_index := none, bm25_corpus := [], bm25_metadata := [] }

/-- `query.lower().split()`: lowercase whitespace tokenization. -/
def tokenize (s : String) : List String :=
  (s.toLower.split Char.isWhitespace).filter (fun t => t ≠ "")

/-- `np.argsort(scores)[::-1]`: indices sorted by score ascending, then
reversed. -/
def argsortRev (scores : List ℚ) : List Nat :=
  (@List.insertionSort Nat (fun i j => scores.getD i 0 ≤ scores.getD j 0)
    (fun i j => inferInstanceAs (Decidable (scores.getD i 0 ≤ scores.getD j 0)))
    (List.range scores.length)).reverse

/-- `HybridSearch._bm25_search(query, top_k)`: empty when no index is
built; otherwise score the corpus, take the top-`top_k` indices by
descending score, and keep only strictly positive scores. -/
def bm25_search (st : BM25State) (query : String) (top_k : Nat) : List Hit :=
  match st.bm25_index with
  | none => []
  | some get_scores =>
    let scores := get_scores (tokenize query)
    let top_indices := (argsortRev scores).take top_k
    top_indices.filterMap (fun idx =>
      let s := scores.getD idx 0
      if 0 < s then
        some { chunk_id :=
                 match st.bm25_metadata.get? idx with
                 | some chunk => chunk.chunk_id
                 | none => "bm25_" ++ toString idx,
               score := s,
               content := (st.bm25_corpus.get? idx).getD "",
               metadata :=
                 match st.bm25_metadata.get? idx with
                 | some chunk => chunk.metadata
                 | none => default }
      else none)

/-- `HybridSearch.hybrid_search(query, top_k, dense_weight, sparse_weight)`:
validate the weights (`abs(dense_weight + sparse_weight - 1.0) > 0.01`
raises `ValueError`), over-fetch `2 × top_k` candidates from the vector
store oracle and from BM25, fuse with RRF (`k = 60`), truncate to
`top_k`. -/
def hybrid_search (vector_store : String → Nat → List Hit) (st : BM25State)
    (query : String) (top_k : Nat) (dense_weight sparse_weight : ℚ) :
    Except String (List FusedEntry) :=
  if 1 / 100 < |dense_weight + sparse_weight - 1| then
    Except.error "dense_weight + sparse_weight must equal 1.0"
  else
    let dense_results := vector_store query (top_k * 2)
    let sparse_results := bm25_search st query (top_k * 2)
    Except.ok
      ((reciprocal_rank_fusion dense_results sparse_results dense_weight sparse_weight 60).take
        top_k)

/-! ### Reranking agent (src/backend/agents/reranking_agent.py) -/

/-- `settings.reranking_top_k` (src/backend/config.py). -/
def reranking_top_k : Nat := 5

/-- A retrieved chunk as consumed by the reranker: `content` plus an
optional retrieval-time `score` (`chunk.get('score', 0.5)` defaults when
the key is absent). -/
structure RChunk where
  chunk_id : String
  content : String
  score : Option ℝ

/-- A reranked chunk: the input chunk's fields (`{**chunk, ...}`) plus
`rerank_score` and `similarity`. -/
structure RerankedChunk where
  chunk_id : String
  content : String
  score : Option ℝ
  rerank_score : ℝ
  similarity : ℝ

/-- Descending order on rerank scores. -/
def rerankDesc (a b : RerankedChunk) : Prop := b.rerank_score ≤ a.rerank_score

noncomputable instance : DecidableRel rerankDesc :=
  fun _ _ => Classical.propDecidable _

instance : IsTotal RerankedChunk rerankDesc := ⟨fun a b => le_total b.rerank_score a.rerank_score⟩

instance : IsTrans RerankedChunk rerankDesc := ⟨fun _ _ _ hab hbc => le_trans hbc hab⟩

/-- The loop body of `RerankingAgent.rerank`: compute the fresh
query–chunk similarity, blend it with the existing retrieval score
(default 0.5) as `similarity * 0.6 + existing_score * 0.4`, and build
`{**chunk, 'rerank_score': ..., 'similarity': ...}`. -/
noncomputable def scoreChunk (encode : String → List ℝ) (dim : Nat)
    (query_embedding : List ℝ) (chunk : RChunk) : RerankedChunk :=
  let sim := similarity query_embedding (embed_text encode dim chunk.content)
  let existing_score := chunk.score.getD 0.5
  let final_score := sim * 0.6 + existing_score * 0.4
  { chunk_id := chunk.chunk_id, content := chunk.content, score := chunk.score,
    rerank_score := final_score, similarity := sim }

/-- `RerankingAgent.rerank` (the result list written to
`state["reranked_chunks"]`): empty input short-circuits to an empty
output; otherwise embed the query once, score every chunk with
`scoreChunk`, stable-sort by `rerank_score` descending and truncate to
`settings.reranking_top_k`. -/
noncomputable def rerank (encode : String → List ℝ) (dim : Nat) (query : String)
    (chunks : List RChunk) : List RerankedChunk :=
  match chunks with
  | [] => []
  | _ =>
    let query_embedding := embed_text encode dim query
    let scored_chunks := chunks.map (scoreChunk encode dim query_embedding)
    (List.insertionSort rerankDesc scored_chunks).take reranking_top_k

/-! ### Workflow orchestrator (src/backend/agents/workflow.py)

The five agents (analysis, retrieval, reranking, generation, citation)
call external services, so the compiled sequential graph is modelled
parametrically in its stage list; a stage that raises is a stage
returning `Except.error`. -/

/-- The `AgentState` record (src/backend/agents/state.py); opaque
payloads (messages, web results, citations) are strings. -/
structure AgentState where
  query : String
  conversation_id : Option String
  messages : List String
  query_type : Option String
  needs_web_search : Bool
  search_keywords : List String
  retrieved_chunks : List RChunk
  web_results : List String
  reranked_chunks : List RerankedChunk
  generated_response : Option String
  citations : List String
  final_response : Option String
  processing_steps : List String
  error : Option String

/-- The fresh state built at the top of `RAGWorkflow.run`. -/
def initialState (query : String) (conversation_id : Option String) : AgentState :=
  { query := query, conversation_id := conversation_id, messages := [],
    query_type := none, needs_web_search := false, search_keywords := [],
    retrieved_chunks := [], web_results := [], reranked_chunks := [],
    generated_response := none, citations := [], final_response := none,
    processing_steps := [], error := none }

/-- `self.graph.ainvoke(initial_state)`: run the stages in their fixed
sequence; a raising stage aborts the remainder. -/
def runStages : List (AgentState → Except String AgentState) → AgentState →
    Except String AgentState
  | [], s => Except.ok s
  | f :: fs, s =>
    match f s with
    | Except.ok s2 => runStages fs s2
    | Except.error e => Except.error e

/-- `RAGWorkflow.run(query, conversation_id)`: build the initial state,
invoke the graph; on success return the final state, on an exception set
`error` on the *initial* state and return that. -/
def RAGWorkflow.run (stages : List (AgentState → Except String AgentState))
    (query : String) (conversation_id : Option String) : AgentState :=
  let initial_state := initialState query conversation_id
  match runStages stages initial_state with
  | Except.ok final_state => final_state
  | Except.error e => { initial_state with error := some e }

/-! ### Concrete instances used by counterexamples and witnesses -/

/-- Document metadata used in concrete chunking evaluations. -/
def docMetaEx : DocMeta :=
  { doc_id := "doc1", filename := "a.txt", file_type := "txt", upload_timestamp := "t0" }

/-- Chunk metadata for a document `docA`. -/
def metaA : ChunkMeta :=
  { doc_id := "docA", filename := "a.pdf", file_type := "pdf", chunk_index := 0,
    page_number := some 1, total_chunks := some 2, upload_timestamp := "t1" }

/-- Chunk metadata for a different document `docB`. -/
def metaB : ChunkMeta :=
  { doc_id := "docB", filename := "b.pdf", file_type := "pdf", chunk_index := 0,
    page_number := some 7, total_chunks := some 2, upload_timestamp := "t2" }

/-- An undersized chunk of `docA`. -/
def chunkA : Chunk := { chunk_id := "docA_chunk_0", content := "a", metadata := metaA }

/-- An undersized chunk of `docB`. -/
def chunkB : Chunk := { chunk_id := "docB_chunk_0", content := "b", metadata := metaB }

/-- Dense hit `A` of the spec's concrete RRF example. -/
def hitA : Hit := { chunk_id := "A", score := 9 / 10, content := "alpha", metadata := metaA }

/-- Hit `B` of the spec's concrete RRF example (in both lists). -/
def hitB : Hit := { chunk_id := "B", score := 8 / 10, content := "beta", metadata := metaA }

/-- Dense-only hit `C` of the spec's concrete RRF example. -/
def hitC : Hit := { chunk_id := "C", score := 7 / 10, content := "gamma", metadata := metaA }

/-- Sparse-only hit `D` of the spec's concrete RRF example. -/
def hitD : Hit := { chunk_id := "D", score := 6 / 10, content := "delta", metadata := metaB }

/-- A concrete embedding oracle (maps a text to the one-dimensional
vector holding its length). -/
def encodeLen : String → List ℝ := fun s => [(s.length : ℝ)]

/-- A concrete embedding oracle for reranking evaluations (every text
maps to the unit vector `[1]`). -/
def rerankOracle : String → List ℝ := fun _ => [1]

/-- A retrieved chunk with no retrieval-time score. -/
def rcA : RChunk := { chunk_id := "r1", content := "alpha", score := none }

/-- A retrieved chunk carrying a fused retrieval score. -/
noncomputable def rcB : RChunk :=
  { chunk_id := "r2", content := "beta", score := some (9 / 10) }

/-- An adequately sized chunk (content length 4). -/
def bigChunk : Chunk :=
  { chunk_id := "docC_chunk_0", content := "aaaa",
    metadata := { doc_id := "docC", filename := "c.txt", file_type := "txt", chunk_index := 0,
                  page_number := none, total_chunks := some 3, upload_timestamp := "t3" } }

/-- A retrieval stage that completes and stores one retrieved chunk. -/
def stageRetrieve : AgentState → Except String AgentState := fun s =>
  Except.ok { s with retrieved_chunks := [{ chunk_id := "c1", content := "text", score := none }],
                     processing_steps := s.processing_steps ++ ["retrieval"] }

/-- A later stage (generation) that raises. -/
def stageGenerateFail : AgentState → Except String AgentState := fun _ =>
  Except.error "LLM failure"

lemma foldl_buffer_joinRun :
    ∀ (run : List Chunk) (b : String),
      run.foldl (fun acc c => acc ++ " " ++ c.content) b =
        match run with
        | [] => b
        | _ :: _ => b ++ " " ++ joinRun run := by
  intro run
  induction run with
  | nil => intro b; rfl
  | cons d rest ih =>
    intro b
    cases rest with
    | nil => simp [List.foldl, joinRun]
    | cons e rest' =>
      have h := ih (b ++ " " ++ d.content)
      simp only [List.foldl] at h ⊢
      rw [h]
      simp [joinRun, String.append_assoc]

lemma string_append_space_ne_empty (a b : String) : a ++ " " ++ b ≠ "" := by
  intro h
  have : (a ++ " " ++ b).data = [] := congrArg String.data h
  simp [String.data_append] at this

/-- Buffer-mode invariant of the merge loop: with a non-empty buffer, the
loop consumes the remaining run of undersized chunks into the buffer,
flushes it, and continues in empty-buffer mode. -/
lemma mergeLoop_buffer (min_size : Nat) :
    ∀ (rest : List Chunk) (merged : List Chunk) (buffer : String) (bm : ChunkMeta),
      buffer ≠ "" →
      mergeLoop min_size rest merged buffer (some bm) =
        mergeLoop min_size (rest.dropWhile (isSmall min_size))
          (merged ++ [mkMergedChunk merged.length
            ((rest.takeWhile (isSmall min_size)).foldl
              (fun acc c => acc ++ " " ++ c.content) buffer) bm])
          "" none := by
  intro rest
  induction rest with
  | nil =>
    intro merged buffer bm hb
    simp [mergeLoop, hb]
  | cons c rest ih =>
    intro merged buffer bm hb
    by_cases hc : c.content.length < min_size
    · have hsm : isSmall min_size c = true := by simp [isSmall, hc]
      rw [mergeLoop]
      simp only [if_pos hc, if_neg hb]
      rw [ih merged (buffer ++ " " ++ c.content) bm (string_append_space_ne_empty _ _)]
      simp [List.takeWhile_cons, List.dropWhile_cons, hsm, List.foldl]
    · have hsm : ¬ isSmall min_size c = true := by simp [isSmall, hc]
      rw [mergeLoop]
      simp only [if_neg hc, if_neg hb]
      rw [List.takeWhile_cons_of_neg hsm, List.dropWhile_cons_of_neg hsm]
      simp only [List.foldl]
      conv_rhs => rw [mergeLoop]
      simp [hc]

/-- Empty-buffer closed form of the merge loop: the output is the emitted
groups, positions continuing from `merged.length`.  Requires chunk
contents to be non-empty (Python string truthiness: an undersized chunk
with empty content would leave the buffer falsy and be dropped). -/
lemma mergeLoop_empty_buffer (min_size : Nat) :
    ∀ (chunks merged : List Chunk), (∀ c ∈ chunks, c.content ≠ "") →
      mergeLoop min_size chunks merged "" none =
        merged ++ groupsToChunks min_size merged.length (runsGroups min_size chunks) := by
  intro chunks
  induction chunks using runsGroups.induct min_size with
  | case1 =>
    intro merged _
    simp [mergeLoop, runsGroups, groupsToChunks]
  | case2 c rest hc ih =>
    intro merged hne
    rw [mergeLoop]
    simp only [if_pos hc, if_pos rfl]
    rw [mergeLoop_buffer min_size rest merged c.content c.metadata
      (hne c (List.mem_cons_self c rest))]
    rw [ih (merged ++ [_]) (fun d hd => hne d (List.mem_cons_of_mem c
      ((List.dropWhile_sublist (isSmall min_size)).mem hd)))]
    rw [runsGroups]
    simp only [if_pos hc]
    rw [groupsToChunks]
    have hemit : emitGroup min_size merged.length (c :: rest.takeWhile (isSmall min_size)) =
        mkMergedChunk merged.length
          ((rest.takeWhile (isSmall min_size)).foldl
            (fun acc d => acc ++ " " ++ d.content) c.content) c.metadata := by
      rw [emitGroup]
      simp only [if_pos hc]
      rw [foldl_buffer_joinRun]
      cases htw : rest.takeWhile (isSmall min_size) with
      | nil => simp [joinRun]
      | cons d tw => simp [joinRun]
    rw [hemit]
    simp [List.append_assoc, List.length_append]
  | case3 c rest hc ih =>
    intro merged hne
    rw [mergeLoop]
    simp only [if_neg hc, if_pos rfl]
    rw [ih (merged ++ [c]) (fun d hd => hne d (List.mem_cons_of_mem c hd))]
    rw [runsGroups]
    simp only [if_neg hc]
    rw [groupsToChunks, emitGroup]
    simp only [if_neg hc]
    simp [List.append_assoc, List.length_append]

/-- Closed form of `merge_small_chunks`: emit the groups, then re-number. -/
lemma merge_small_chunks_closed_form (chunks : List Chunk) (min_size : Nat)
    (h : ∀ c ∈ chunks, c.content ≠ "") :
    merge_small_chunks chunks min_size =
      renumber (groupsToChunks min_size 0 (runsGroups min_size chunks)) := by
  cases chunks with
  | nil => simp [merge_small_chunks, runsGroups, groupsToChunks, renumber, renumberAux]
  | cons c rest =>
    show renumber (mergeLoop min_size (c :: rest) [] "" none) = _
    rw [mergeLoop_empty_buffer min_size (c :: rest) [] h]
    simp

lemma renumberAux_length (total : Nat) :
    ∀ (l : List Chunk) (n : Nat), (renumberAux total n l).length = l.length := by
  intro l
  induction l with
  | nil => intro n; rfl
  | cons c rest ih => intro n; simp [renumberAux, ih]

lemma renumberAux_get? (total : Nat) :
    ∀ (l : List Chunk) (n i : Nat),
      (renumberAux total n l).get? i =
        (l.get? i).map (fun c =>
          { c with metadata :=
              { c.metadata with chunk_index := n + i, total_chunks := some total } }) := by
  intro l
  induction l with
  | nil => intro n i; simp [renumberAux]
  | cons c rest ih =>
    intro n i
    cases i with
    | zero => simp [renumberAux]
    | succ j =>
      simp only [renumberAux, List.get?]
      rw [ih (n + 1) j]
      have : n + 1 + j = n + (j + 1) := by omega
      rw [this]

lemma renumberAux_mem (total : Nat) :
    ∀ (l : List Chunk) (n : Nat) (c : Chunk), c ∈ l →
      ∃ c' ∈ renumberAux total n l,
        c'.chunk_id = c.chunk_id ∧ c'.content = c.content ∧
        metaSameExceptIndex c'.metadata c.metadata := by
  intro l
  induction l with
  | nil => intro n c hc; cases hc
  | cons d rest ih =>
    intro n c hc
    rcases List.mem_cons.mp hc with rfl | hc
    · exact ⟨_, List.mem_cons_self _ _, rfl, rfl, rfl, rfl, rfl, rfl, rfl⟩
    · obtain ⟨c', hc', h1, h2, h3⟩ := ih (n + 1) c hc
      exact ⟨c', List.mem_cons_of_mem _ hc', h1, h2, h3⟩

lemma renumber_mem (l : List Chunk) (c : Chunk) (hc : c ∈ l) :
    ∃ c' ∈ renumber l,
      c'.chunk_id = c.chunk_id ∧ c'.content = c.content ∧
      metaSameExceptIndex c'.metadata c.metadata :=
  renumberAux_mem l.length l 0 c hc

lemma groupsToChunks_length (min_size : Nat) :
    ∀ (gs : List (List Chunk)) (pos : Nat),
      (groupsToChunks min_size pos gs).length = gs.length := by
  intro gs
  induction gs with
  | nil => intro pos; rfl
  | cons g gs ih => intro pos; simp [groupsToChunks, ih]

lemma groupsToChunks_get? (min_size : Nat) :
    ∀ (gs : List (List Chunk)) (pos i : Nat),
      (groupsToChunks min_size pos gs).get? i =
        (gs.get? i).map (fun g => emitGroup min_size (pos + i) g) := by
  intro gs
  induction gs with
  | nil => intro pos i; simp [groupsToChunks]
  | cons g gs ih =>
    intro pos i
    cases i with
    | zero => simp [groupsToChunks]
    | succ j =>
      simp only [groupsToChunks, List.get?]
      rw [ih (pos + 1) j]
      have : pos + 1 + j = pos + (j + 1) := by omega
      rw [this]

lemma runsGroups_join (min_size : Nat) :
    ∀ l : List Chunk, (runsGroups min_size l).flatten = l := by
  intro l
  induction l using runsGroups.induct min_size with
  | case1 => simp [runsGroups]
  | case2 c rest hc ih =>
    rw [runsGroups]
    simp only [if_pos hc, List.flatten_cons, ih]
    simp [List.takeWhile_append_dropWhile]
  | case3 c rest hc ih =>
    rw [runsGroups]
    simp only [if_neg hc, List.flatten_cons, ih]
    simp

lemma runsGroups_ne_nil (min_size : Nat) :
    ∀ (l : List Chunk) (g : List Chunk), g ∈ runsGroups min_size l → g ≠ [] := by
  intro l
  induction l using runsGroups.induct min_size with
  | case1 => intro g hg; rw [runsGroups] at hg; cases hg
  | case2 c rest hc ih =>
    intro g hg
    rw [runsGroups] at hg
    simp only [if_pos hc] at hg
    rcases List.mem_cons.mp hg with rfl | hg
    · simp
    · exact ih g hg
  | case3 c rest hc ih =>
    intro g hg
    rw [runsGroups] at hg
    simp only [if_neg hc] at hg
    rcases List.mem_cons.mp hg with rfl | hg
    · simp
    · exact ih g hg

lemma runsGroups_multi_small (min_size : Nat) :
    ∀ (l : List Chunk) (g : List Chunk), g ∈ runsGroups min_size l → 1 < g.length →
      ∀ d ∈ g, d.content.length < min_size := by
  intro l
  induction l using runsGroups.induct min_size with
  | case1 => intro g hg; rw [runsGroups] at hg; cases hg
  | case2 c rest hc ih =>
    intro g hg hlen d hd
    rw [runsGroups] at hg
    simp only [if_pos hc] at hg
    rcases List.mem_cons.mp hg with rfl | hg
    · rcases List.mem_cons.mp hd with rfl | hd
      · exact hc
      · have := List.mem_takeWhile_imp hd
        simpa [isSmall] using this
    · exact ih g hg hlen d hd
  | case3 c rest hc ih =>
    intro g hg hlen d hd
    rw [runsGroups] at hg
    simp only [if_neg hc] at hg
    rcases List.mem_cons.mp hg with rfl | hg
    · simp at hlen
    · exact ih g hg hlen d hd

lemma runsGroups_big_singleton (min_size : Nat) :
    ∀ (l : List Chunk) (g : List Chunk) (c0 : Chunk) (gt : List Chunk),
      g ∈ runsGroups min_size l → g = c0 :: gt → ¬c0.content.length < min_size →
      gt = [] := by
  intro l
  induction l using runsGroups.induct min_size with
  | case1 => intro g c0 gt hg; rw [runsGroups] at hg; cases hg
  | case2 c rest hc ih =>
    intro g c0 gt hg hgeq hc0
    rw [runsGroups] at hg
    simp only [if_pos hc] at hg
    rcases List.mem_cons.mp hg with rfl | hg
    · cases hgeq; exact absurd hc hc0
    · exact ih g c0 gt hg hgeq hc0
  | case3 c rest hc ih =>
    intro g c0 gt hg hgeq hc0
    rw [runsGroups] at hg
    simp only [if_neg hc] at hg
    rcases List.mem_cons.mp hg with rfl | hg
    · cases hgeq; rfl
    · exact ih g c0 gt hg hgeq hc0

lemma dropWhile_append_of_exists {α : Type} (p : α → Bool) :
    ∀ (l l' : List α), (∃ d ∈ l, p d = false) →
      (l ++ l').dropWhile p = l.dropWhile p ++ l' := by
  intro l
  induction l with
  | nil => intro l' h; obtain ⟨d, hd, _⟩ := h; cases hd
  | cons x l ih =>
    intro l' h
    by_cases hx : p x = true
    · rw [List.cons_append, List.dropWhile_cons_of_pos hx, List.dropWhile_cons_of_pos hx]
      apply ih
      obtain ⟨d, hd, hpd⟩ := h
      rcases List.mem_cons.mp hd with rfl | hd
      · rw [hx] at hpd; cases hpd
      · exact ⟨d, hd, hpd⟩
    · have hx' : ¬ p x = true := hx
      rw [List.cons_append, List.dropWhile_cons_of_neg hx', List.dropWhile_cons_of_neg hx']
      simp

lemma dropWhile_concat_big {α : Type} (p : α → Bool) :
    ∀ (l : List α) (d : α), p d = false →
      ∃ l₁, (l ++ [d]).dropWhile p = l₁ ++ [d] ∧ l₁.length ≤ l.length := by
  intro l
  induction l with
  | nil =>
    intro d hd
    refine ⟨[], ?_, le_refl _⟩
    have hd' : ¬ p d = true := by simp [hd]
    simp [List.dropWhile_cons_of_neg hd']
  | cons x l ih =>
    intro d hd
    by_cases hx : p x = true
    · obtain ⟨l₁, h1, h2⟩ := ih d hd
      refine ⟨l₁, ?_, le_trans h2 (by simp)⟩
      rw [List.cons_append, List.dropWhile_cons_of_pos hx, h1]
    · refine ⟨x :: l, ?_, le_refl _⟩
      rw [List.cons_append, List.dropWhile_cons_of_neg hx]

lemma big_mem_groups (min_size : Nat) :
    ∀ (l : List Chunk) (pos : Nat) (c : Chunk), c ∈ l → ¬c.content.length < min_size →
      c ∈ groupsToChunks min_size pos (runsGroups min_size l) := by
  intro l
  induction l using runsGroups.induct min_size with
  | case1 => intro pos c hc; cases hc
  | case2 c0 rest hc0 ih =>
    intro pos c hc hbig
    rcases List.mem_cons.mp hc with rfl | hc
    · exact absurd hc0 hbig
    · rw [runsGroups]
      simp only [if_pos hc0]
      rw [groupsToChunks]
      apply List.mem_cons_of_mem
      apply ih (pos + 1) c _ hbig
      rw [← List.takeWhile_append_dropWhile (p := isSmall min_size) (l := rest)] at hc
      rcases List.mem_append.mp hc with htw | hdw
      · have := List.mem_takeWhile_imp htw
        simp [isSmall] at this
        exact absurd this hbig
      · exact hdw
  | case3 c0 rest hc0 ih =>
    intro pos c hc hbig
    rw [runsGroups]
    simp only [if_neg hc0]
    rw [groupsToChunks]
    rcases List.mem_cons.mp hc with rfl | hc
    · have he : emitGroup min_size pos [c] = c := by rw [emitGroup, if_neg hbig]
      rw [he]
      exact List.Mem.head _
    · exact List.mem_cons_of_mem _ (ih (pos + 1) c hc hbig)

lemma run_mem_groups (min_size : Nat) :
    ∀ (n : Nat) (pre : List Chunk) (c : Chunk) (rest' : List Chunk) (pos : Nat),
      pre.length ≤ n → c.content.length < min_size →
      (pre = [] ∨ ∃ pre₀ d, pre = pre₀ ++ [d] ∧ ¬d.content.length < min_size) →
      ∃ pos', mkMergedChunk pos' (joinRun (c :: rest'.takeWhile (isSmall min_size))) c.metadata
        ∈ groupsToChunks min_size pos (runsGroups min_size (pre ++ c :: rest')) := by
  intro n
  induction n with
  | zero =>
    intro pre c rest' pos hlen hc _
    have hpre : pre = [] := List.eq_nil_of_length_eq_zero (Nat.le_zero.mp hlen)
    subst hpre
    rw [List.nil_append, runsGroups]
    simp only [if_pos hc]
    rw [groupsToChunks]
    refine ⟨pos, ?_⟩
    have : emitGroup min_size pos (c :: rest'.takeWhile (isSmall min_size)) =
        mkMergedChunk pos (joinRun (c :: rest'.takeWhile (isSmall min_size))) c.metadata := by
      rw [emitGroup, if_pos hc]
    rw [← this]
    exact List.Mem.head _
  | succ n ih =>
    intro pre c rest' pos hlen hc hend
    cases pre with
    | nil =>
      rw [List.nil_append, runsGroups]
      simp only [if_pos hc]
      rw [groupsToChunks]
      refine ⟨pos, ?_⟩
      have : emitGroup min_size pos (c :: rest'.takeWhile (isSmall min_size)) =
          mkMergedChunk pos (joinRun (c :: rest'.takeWhile (isSmall min_size))) c.metadata := by
        rw [emitGroup, if_pos hc]
      rw [← this]
      exact List.Mem.head _
    | cons p pre' =>
      rcases hend with hnil | ⟨pre₀, d, hpre, hd⟩
      · cases hnil
      by_cases hp : p.content.length < min_size
      · -- the head of `pre` is undersized: its run lies inside `pre`
        obtain ⟨pre₁, hpre1⟩ : ∃ pre₁, pre' = pre₁ ++ [d] := by
          cases pre₀ with
          | nil =>
            exfalso
            rw [List.nil_append] at hpre
            have h1 : p = d := by injection hpre
            exact hd (h1 ▸ hp)
          | cons q pre₁ =>
            rw [List.cons_append] at hpre
            exact ⟨pre₁, by injection hpre⟩
        have hdmem : d ∈ pre' := hpre1 ▸ List.mem_append_right _ (List.Mem.head _)
        rw [List.cons_append, runsGroups]
        simp only [if_pos hp]
        rw [groupsToChunks]
        have hdrop : (pre' ++ c :: rest').dropWhile (isSmall min_size) =
            pre'.dropWhile (isSmall min_size) ++ c :: rest' :=
          dropWhile_append_of_exists _ _ _ ⟨d, hdmem, by simp [isSmall, hd]⟩
        obtain ⟨l₁, hl₁, hlen₁⟩ :=
          dropWhile_concat_big (isSmall min_size) pre₁ d (by simp [isSmall, hd])
        have hlen' : (pre'.dropWhile (isSmall min_size)).length ≤ n := by
          have h1 : (pre'.dropWhile (isSmall min_size)).length ≤ pre'.length :=
            List.Sublist.length_le (List.dropWhile_sublist _)
          have h2 : (p :: pre').length ≤ n + 1 := hlen
          simp at h2
          omega
        have hend' : pre'.dropWhile (isSmall min_size) = [] ∨
            ∃ pre₀' d', pre'.dropWhile (isSmall min_size) = pre₀' ++ [d'] ∧
              ¬d'.content.length < min_size := by
          right
          exact ⟨l₁, d, by rw [hpre1]; exact hl₁, hd⟩
        obtain ⟨pos', hmem⟩ := ih (pre'.dropWhile (isSmall min_size)) c rest' (pos + 1)
          hlen' hc hend'
        rw [hdrop]
        exact ⟨pos', List.mem_cons_of_mem _ hmem⟩
      · -- the head of `pre` is adequately sized: it forms its own group
        rw [List.cons_append, runsGroups]
        simp only [if_neg hp]
        rw [groupsToChunks]
        have hend' : pre' = [] ∨
            ∃ pre₀' d', pre' = pre₀' ++ [d'] ∧ ¬d'.content.length < min_size := by
          cases hpre'' : pre' with
          | nil => exact Or.inl rfl
          | cons q pre₁ =>
            right
            cases pre₀ with
            | nil =>
              exfalso
              rw [hpre'', List.nil_append] at hpre
              simp at hpre
            | cons r pre₂ =>
              rw [List.cons_append] at hpre
              refine ⟨pre₂, d, ?_, hd⟩
              rw [← hpre'']
              injection hpre
        have hlen' : pre'.length ≤ n := by
          have : (p :: pre').length ≤ n + 1 := hlen
          simp at this
          omega
        obtain ⟨pos', hmem⟩ := ih pre' c rest' (pos + 1) hlen' hc hend'
        exact ⟨pos', List.mem_cons_of_mem _ hmem⟩

/-- **C2** (code bug): for a plain-text document whose splitter output
contains a piece of stripped length < 10 (here `["hi", "aaaaaaaaaaaa"]`),
`_chunk_plain_text` returns one chunk but stamps `chunk_index = 1`
(instead of `0`) and `total_chunks = 2` (instead of `1`): the
`chunkIndex = 0..n-1` / `totalChunks = n` invariant is not re-established
after the minimum-length filter. -/
theorem chunk_plain_text_breaks_index_invariant :
    (chunk_plain_text (fun _ => ["hi", "aaaaaaaaaaaa"]) "hi\n\naaaaaaaaaaaa" docMetaEx).length
        = 1 ∧
    (chunk_plain_text (fun _ => ["hi", "aaaaaaaaaaaa"]) "hi\n\naaaaaaaaaaaa" docMetaEx).map
        (fun c => c.metadata.chunk_index) = [1] ∧
    (chunk_plain_text (fun _ => ["hi", "aaaaaaaaaaaa"]) "hi\n\naaaaaaaaaaaa" docMetaEx).map
        (fun c => c.metadata.total_chunks) = [some 2] := by
  decide

/-- **C3** (counterexample): two consecutive undersized chunks from
*different* documents (`docA` and `docB`) are merged into a single chunk
carrying `docA`'s metadata — `merge_small_chunks` never compares
`doc_id`s, so the claim's "never merges chunks belonging to different
documents into one chunk" is false. -/
theorem merge_small_chunks_merges_across_documents :
    merge_small_chunks [chunkA, chunkB] 100 =
      [{ chunk_id := "docA_chunk_0", content := "a b",
         metadata := { metaA with chunk_index := 0, total_chunks := some 1 } }] ∧
    chunkA.metadata.doc_id ≠ chunkB.metadata.doc_id := by
  decide

/-- **C3** (amended): for every chunk list (with the non-empty contents
the chunk data model guarantees) and every `min_size`,
`merge_small_chunks` partitions the input into consecutive groups —
preserving input order — such that every group with more than one member
consists solely of undersized chunks, and emits exactly one chunk per
group whose content is the group's contents joined by single spaces and
whose metadata (apart from the re-numbered `chunk_index`/`total_chunks`)
comes from the group's first member.  Merging is *regardless of source
document*, so chunks of different documents can land in one group. -/
theorem merge_small_chunks_order_and_runs (chunks : List Chunk) (min_size : Nat)
    (hne : ∀ c ∈ chunks, c.content ≠ "") :
    ∃ groups : List (List Chunk),
      groups.flatten = chunks ∧
      (∀ g ∈ groups, g ≠ []) ∧
      (∀ g ∈ groups, 1 < g.length → ∀ d ∈ g, d.content.length < min_size) ∧
      (merge_small_chunks chunks min_size).length = groups.length ∧
      (∀ i, ∀ h1 : i < groups.length,
        ∃ (h2 : i < (merge_small_chunks chunks min_size).length) (c0 : Chunk)
          (gt : List Chunk),
          groups.get ⟨i, h1⟩ = c0 :: gt ∧
          ((merge_small_chunks chunks min_size).get ⟨i, h2⟩).content = joinRun (c0 :: gt) ∧
          metaSameExceptIndex ((merge_small_chunks chunks min_size).get ⟨i, h2⟩).metadata
            c0.metadata) := by
  have hclosed := merge_small_chunks_closed_form chunks min_size hne
  have hlen : (merge_small_chunks chunks min_size).length =
      (runsGroups min_size chunks).length := by
    rw [hclosed, renumber, renumberAux_length, groupsToChunks_length]
  refine ⟨runsGroups min_size chunks, runsGroups_join min_size chunks,
    runsGroups_ne_nil min_size chunks, runsGroups_multi_small min_size chunks, hlen, ?_⟩
  intro i h1
  have h2 : i < (merge_small_chunks chunks min_size).length := by omega
  set g := (runsGroups min_size chunks).get ⟨i, h1⟩ with hgdef
  have hgmem : g ∈ runsGroups min_size chunks := List.get_mem _ _ _
  obtain ⟨c0, gt, hgeq⟩ : ∃ c0 gt, g = c0 :: gt := by
    cases hg : g with
    | nil => exact absurd hg (runsGroups_ne_nil min_size chunks g hgmem)
    | cons c0 gt => exact ⟨c0, gt, rfl⟩
  refine ⟨h2, c0, gt, hgeq, ?_⟩
  have hget : (merge_small_chunks chunks min_size).get? i =
      some { emitGroup min_size i g with
        metadata := { (emitGroup min_size i g).metadata with
          chunk_index := i,
          total_chunks :=
            some (groupsToChunks min_size 0 (runsGroups min_size chunks)).length } } := by
    rw [hclosed, renumber, renumberAux_get?, groupsToChunks_get?]
    rw [List.get?_eq_get h1, ← hgdef]
    simp
  have hgetg : (merge_small_chunks chunks min_size).get ⟨i, h2⟩ =
      { emitGroup min_size i g with
        metadata := { (emitGroup min_size i g).metadata with
          chunk_index := i,
          total_chunks :=
            some (groupsToChunks min_size 0 (runsGroups min_size chunks)).length } } := by
    have := List.get?_eq_get h2
    rw [hget] at this
    exact (Option.some.injEq _ _).mp this.symm
  by_cases hc0 : c0.content.length < min_size
  · have hemit : emitGroup min_size i g = mkMergedChunk i (joinRun (c0 :: gt)) c0.metadata := by
      rw [hgeq, emitGroup, if_pos hc0]
    rw [hgetg, hemit]
    exact ⟨rfl, rfl, rfl, rfl, rfl, rfl⟩
  · have hgt : gt = [] := runsGroups_big_singleton min_size chunks g c0 gt hgmem hgeq hc0
    have hemit : emitGroup min_size i g = c0 := by
      rw [hgeq, hgt, emitGroup, if_neg hc0]
    rw [hgetg, hemit, hgt]
    exact ⟨rfl, rfl, rfl, rfl, rfl, rfl⟩

/-- **C3** witness: the amended theorem instantiated on the concrete
two-document list `[chunkA, chunkB]` with `min_size = 100`. -/
theorem merge_small_chunks_order_and_runs_witness :
    (∀ c ∈ [chunkA, chunkB], c.content ≠ "") ∧
    ∃ groups : List (List Chunk),
      groups.flatten = [chunkA, chunkB] ∧
      (∀ g ∈ groups, g ≠ []) ∧
      (∀ g ∈ groups, 1 < g.length → ∀ d ∈ g, d.content.length < 100) ∧
      (merge_small_chunks [chunkA, chunkB] 100).length = groups.length ∧
      (∀ i, ∀ h1 : i < groups.length,
        ∃ (h2 : i < (merge_small_chunks [chunkA, chunkB] 100).length) (c0 : Chunk)
          (gt : List Chunk),
          groups.get ⟨i, h1⟩ = c0 :: gt ∧
          ((merge_small_chunks [chunkA, chunkB] 100).get ⟨i, h2⟩).content = joinRun (c0 :: gt) ∧
          metaSameExceptIndex ((merge_small_chunks [chunkA, chunkB] 100).get ⟨i, h2⟩).metadata
            c0.metadata) :=
  ⟨by decide, merge_small_chunks_order_and_runs [chunkA, chunkB] 100 (by decide)⟩

/-- **C10**: `merge_small_chunks` (on chunk lists with the non-empty
contents the data model guarantees) keeps every adequately sized chunk's
`chunk_id` and `content` unchanged, rewriting only the
`chunk_index`/`total_chunks` metadata fields; and the chunk produced for
a run of consecutive undersized chunks (one starting after an adequately
sized chunk or at the head of the list) carries the content-join of the
run and the metadata — including `page_number` and `doc_id` — of the
run's first chunk. -/
theorem merge_small_chunks_frame (chunks : List Chunk) (min_size : Nat)
    (hne : ∀ c ∈ chunks, c.content ≠ "") :
    (∀ c ∈ chunks, ¬c.content.length < min_size →
      ∃ c' ∈ merge_small_chunks chunks min_size,
        c'.chunk_id = c.chunk_id ∧ c'.content = c.content ∧
        metaSameExceptIndex c'.metadata c.metadata) ∧
    (∀ pre c rest', chunks = pre ++ c :: rest' → c.content.length < min_size →
      (pre = [] ∨ ∃ pre₀ d, pre = pre₀ ++ [d] ∧ ¬d.content.length < min_size) →
      ∃ c' ∈ merge_small_chunks chunks min_size,
        c'.content = joinRun (c :: rest'.takeWhile (isSmall min_size)) ∧
        metaSameExceptIndex c'.metadata c.metadata) := by
  have hclosed := merge_small_chunks_closed_form chunks min_size hne
  constructor
  · intro c hc hbig
    have hmem := big_mem_groups min_size chunks 0 c hc hbig
    obtain ⟨c', hc', h1, h2, h3⟩ := renumber_mem _ c hmem
    exact ⟨c', by rw [hclosed]; exact hc', h1, h2, h3⟩
  · intro pre c rest' hchunks hc hend
    obtain ⟨pos', hmem⟩ :=
      run_mem_groups min_size pre.length pre c rest' 0 (le_refl _) hc hend
    rw [← hchunks] at hmem
    obtain ⟨c', hc', h1, h2, h3⟩ := renumber_mem _ _ hmem
    refine ⟨c', by rw [hclosed]; exact hc', ?_, h3⟩
    rw [h2]
    rfl

/-- **C10** witness: the frame theorem instantiated on
`[bigChunk, chunkA, chunkB]` with `min_size = 3` — the 4-character
`bigChunk` survives unchanged, and the run `[chunkA, chunkB]` merges into
a chunk with content `"a b"` and `chunkA`'s metadata. -/
theorem merge_small_chunks_frame_witness :
    (∃ c' ∈ merge_small_chunks [bigChunk, chunkA, chunkB] 3,
      c'.chunk_id = bigChunk.chunk_id ∧ c'.content = bigChunk.content ∧
      metaSameExceptIndex c'.metadata bigChunk.metadata) ∧
    (∃ c' ∈ merge_small_chunks [bigChunk, chunkA, chunkB] 3,
      c'.content = joinRun (chunkA :: [chunkB].takeWhile (isSmall 3)) ∧
      metaSameExceptIndex c'.metadata chunkA.metadata) := by
  constructor
  · exact (merge_small_chunks_frame [bigChunk, chunkA, chunkB] 3 (by decide)).1
      bigChunk (by decide) (by decide)
  · exact (merge_small_chunks_frame [bigChunk, chunkA, chunkB] 3 (by decide)).2
      [bigChunk] chunkA [chunkB] rfl (by decide)
      (Or.inr ⟨[], bigChunk, rfl, by decide⟩)

lemma enumFrom_get? {α : Type} :
    ∀ (l : List α) (n i : Nat),
      (enumFrom n l).get? i = (l.get? i).map (fun a => (n + i, a)) := by
  intro l
  induction l with
  | nil => intro n i; simp [enumFrom]
  | cons a l ih =>
    intro n i
    cases i with
    | zero => simp [enumFrom]
    | succ j =>
      simp only [enumFrom, List.get?]
      rw [ih (n + 1) j]
      have : n + 1 + j = n + (j + 1) := by omega
      rw [this]

lemma mem_enumFrom {α : Type} (l : List α) (p : Nat × α) :
    p ∈ enumFrom 0 l ↔ l.get? p.1 = some p.2 := by
  constructor
  · intro hp
    obtain ⟨j, hj⟩ := List.mem_iff_get?.mp hp
    rw [enumFrom_get?] at hj
    cases hl : l.get? j with
    | none => rw [hl] at hj; cases hj
    | some a =>
      rw [hl] at hj
      simp only [Option.map_some', Option.some.injEq] at hj
      rw [← hj]
      simpa using hl
  · intro hp
    apply List.mem_iff_get?.mpr
    exact ⟨p.1, by rw [enumFrom_get?, hp]; simp⟩

lemma enumFrom_fst_ge {α : Type} :
    ∀ (l : List α) (n : Nat) (p : Nat × α), p ∈ enumFrom n l → n ≤ p.1 := by
  intro l
  induction l with
  | nil => intro n p hp; cases hp
  | cons a l ih =>
    intro n p hp
    rcases List.mem_cons.mp hp with rfl | hp
    · exact le_refl _
    · exact le_trans (Nat.le_succ n) (ih (n + 1) p hp)

lemma enumFrom_fst_nodup {α : Type} :
    ∀ (l : List α) (n : Nat), ((enumFrom n l).map Prod.fst).Nodup := by
  intro l
  induction l with
  | nil => intro n; simp [enumFrom]
  | cons a l ih =>
    intro n
    simp only [enumFrom, List.map_cons]
    refine List.Nodup.cons ?_ (ih (n + 1))
    intro hmem
    obtain ⟨p, hp, hfst⟩ := List.mem_map.mp hmem
    have := enumFrom_fst_ge l (n + 1) p hp
    omega

lemma foldl_set_length {α : Type} :
    ∀ (pairs : List (Nat × α)) (init : List α),
      (pairs.foldl (fun res p => res.set p.1 p.2) init).length = init.length := by
  intro pairs
  induction pairs with
  | nil => intro init; rfl
  | cons q pairs ih => intro init; rw [List.foldl_cons, ih, List.length_set]

lemma foldl_set_get?_not_mem {α : Type} :
    ∀ (pairs : List (Nat × α)) (init : List α) (i : Nat),
      (∀ p ∈ pairs, p.1 ≠ i) →
      (pairs.foldl (fun res p => res.set p.1 p.2) init).get? i = init.get? i := by
  intro pairs
  induction pairs with
  | nil => intro init i _; rfl
  | cons q pairs ih =>
    intro init i hne
    rw [List.foldl_cons, ih _ i (fun p hp => hne p (List.mem_cons_of_mem _ hp))]
    exact List.get?_set_ne _ _ (hne q (List.mem_cons_self _ _))

lemma foldl_set_get?_mem {α : Type} :
    ∀ (pairs : List (Nat × α)) (init : List α) (i : Nat) (v : α),
      (pairs.map Prod.fst).Nodup → (i, v) ∈ pairs → i < init.length →
      (pairs.foldl (fun res p => res.set p.1 p.2) init).get? i = some v := by
  intro pairs
  induction pairs with
  | nil => intro init i v _ hmem; cases hmem
  | cons q pairs ih =>
    intro init i v hnd hmem hlt
    rw [List.map_cons] at hnd
    rcases List.mem_cons.mp hmem with rfl | hmem
    · rw [List.foldl_cons]
      rw [foldl_set_get?_not_mem pairs _ i ?_]
      · exact List.get?_set_eq_of_lt _ hlt
      · intro p hp hpeq
        have hmm : p.1 ∈ pairs.map Prod.fst := List.mem_map.mpr ⟨p, hp, rfl⟩
        rw [hpeq] at hmm
        exact (List.nodup_cons.mp hnd).1 hmm
    · rw [List.foldl_cons]
      exact ih _ i v (List.nodup_cons.mp hnd).2 hmem (by rw [List.length_set]; exact hlt)

/-- **C5**: `embed_batch` returns exactly `len(texts)` vectors in input
order: position `i` holds `embed_text(texts[i])` — in particular the
all-zero vector of the configured dimension whenever `texts[i]` is empty
or whitespace-only — with no reordering despite the internal filtering of
non-empty entries. -/
theorem embed_batch_pointwise (encode : String → List ℝ) (dim : Nat) (texts : List String) :
    (embed_batch encode dim texts).length = texts.length ∧
    ∀ i, ∀ h : i < texts.length,
      (embed_batch encode dim texts).get? i =
        some (embed_text encode dim (texts.get ⟨i, h⟩)) ∧
      (isBlank (texts.get ⟨i, h⟩) = true →
        (embed_batch encode dim texts).get? i = some (zeroVec dim)) := by
  by_cases hnil : texts = []
  · subst hnil
    exact ⟨rfl, fun i h => absurd h (by simp)⟩
  · by_cases hval : (enumFrom 0 texts).filter (fun p => !isBlank p.2) = []
    · have hbatch : embed_batch encode dim texts =
          List.replicate texts.length (zeroVec dim) := by
        rw [embed_batch, if_neg hnil]
        simp only [hval, if_pos]
      have hblank : ∀ i, ∀ h : i < texts.length, isBlank (texts.get ⟨i, h⟩) = true := by
        intro i h
        have hmem : ((i, texts.get ⟨i, h⟩) : Nat × String) ∈ enumFrom 0 texts :=
          (mem_enumFrom texts _).mpr (List.get?_eq_get h)
        have := List.filter_eq_nil_iff.mp hval _ hmem
        simpa using this
      constructor
      · rw [hbatch, List.length_replicate]
      · intro i h
        have hrep : (List.replicate texts.length (zeroVec dim)).get? i = some (zeroVec dim) := by
          rw [List.get?_eq_getElem?, List.getElem?_replicate, if_pos h]
        refine ⟨?_, fun _ => by rw [hbatch]; exact hrep⟩
        rw [hbatch, hrep, embed_text, if_pos (hblank i h)]
    · set valid := (enumFrom 0 texts).filter (fun p => !isBlank p.2) with hvalid
      have hbatch : embed_batch encode dim texts =
          ((valid.map Prod.fst).zip (valid.map fun p => encode p.2)).foldl
            (fun res p => res.set p.1 p.2) (List.replicate texts.length (zeroVec dim)) := by
        rw [embed_batch, if_neg hnil]
        simp only [← hvalid, if_neg hval]
      have hpairs : (valid.map Prod.fst).zip (valid.map fun p => encode p.2) =
          valid.map fun p => (p.1, encode p.2) := List.zip_map' _ _ _
      have hnd : ((valid.map fun p => (p.1, encode p.2)).map Prod.fst).Nodup := by
        rw [List.map_map]
        have : (Prod.fst ∘ fun p : Nat × String => (p.1, encode p.2)) = Prod.fst := rfl
        rw [this]
        exact List.Nodup.sublist
          (List.Sublist.map Prod.fst (List.filter_sublist _)) (enumFrom_fst_nodup texts 0)
      constructor
      · rw [hbatch, foldl_set_length, List.length_replicate]
      · intro i h
        by_cases hb : isBlank (texts.get ⟨i, h⟩) = true
        · have hnot : ∀ p ∈ (valid.map fun p => (p.1, encode p.2)), p.1 ≠ i := by
            rintro ⟨j, v⟩ hp hji
            obtain ⟨q, hq, hqeq⟩ := List.mem_map.mp hp
            obtain ⟨hqmem, hqblank⟩ := List.mem_filter.mp hq
            have hget : texts.get? q.1 = some q.2 := (mem_enumFrom texts q).mp hqmem
            have hj : q.1 = j := by
              have := congrArg Prod.fst hqeq
              simpa using this
            have hji' : j = i := hji
            rw [hj, hji', List.get?_eq_get h, Option.some.injEq] at hget
            have hb' : isBlank q.2 = true := by rw [← hget]; exact hb
            simp [hb'] at hqblank
          have hres : (embed_batch encode dim texts).get? i = some (zeroVec dim) := by
            rw [hbatch, hpairs, foldl_set_get?_not_mem _ _ i hnot,
              List.get?_eq_getElem?, List.getElem?_replicate, if_pos h]
          exact ⟨by rw [hres, embed_text, if_pos hb], fun _ => hres⟩
        · have hmem : ((i, texts.get ⟨i, h⟩) : Nat × String) ∈ valid := by
            rw [hvalid]
            refine List.mem_filter.mpr ⟨(mem_enumFrom texts _).mpr (List.get?_eq_get h), ?_⟩
            simpa using hb
          have hmem2 : ((i, encode (texts.get ⟨i, h⟩)) : Nat × List ℝ) ∈
              (valid.map fun p => (p.1, encode p.2)) :=
            List.mem_map.mpr ⟨_, hmem, rfl⟩
          have hres : (embed_batch encode dim texts).get? i =
              some (encode (texts.get ⟨i, h⟩)) := by
            rw [hbatch, hpairs]
            exact foldl_set_get?_mem _ _ i _ hnd hmem2 (by rw [List.length_replicate]; exact h)
          refine ⟨by rw [hres, embed_text, if_neg hb], fun hb' => absurd hb' hb⟩

/-- **C5** witness: the pointwise theorem instantiated on
`["ab", " ", "", "cd"]` with a concrete one-dimensional encoder — the
blank entries at positions 1 and 2 become zero vectors and position 3
equals `embed_text "cd"`. -/
theorem embed_batch_pointwise_witness :
    (embed_batch encodeLen 1 ["ab", " ", "", "cd"]).length = 4 ∧
    (embed_batch encodeLen 1 ["ab", " ", "", "cd"]).get? 1 = some (zeroVec 1) ∧
    (embed_batch encodeLen 1 ["ab", " ", "", "cd"]).get? 0 =
      some (embed_text encodeLen 1 "ab") ∧
    (embed_batch encodeLen 1 ["ab", " ", "", "cd"]).get? 3 =
      some (embed_text encodeLen 1 "cd") := by
  have h := embed_batch_pointwise encodeLen 1 ["ab", " ", "", "cd"]
  exact ⟨h.1, (h.2 1 (by decide)).2 (by decide), (h.2 0 (by decide)).1, (h.2 3 (by decide)).1⟩

lemma sumSq_nonneg : ∀ v : List ℝ, 0 ≤ sumSq v := by
  intro v
  induction v with
  | nil => simp [sumSq, dotList]
  | cons a v ih =>
    have : sumSq (a :: v) = a * a + sumSq v := rfl
    rw [this]
    nlinarith [sq_nonneg a]

lemma dotList_sq_le : ∀ v1 v2 : List ℝ, (dotList v1 v2) ^ 2 ≤ sumSq v1 * sumSq v2 := by
  intro v1
  induction v1 with
  | nil =>
    intro v2
    simp [dotList, sumSq]
  | cons a v1 ih =>
    intro v2
    cases v2 with
    | nil =>
      have h1 : dotList (a :: v1) [] = 0 := rfl
      have h2 : sumSq ([] : List ℝ) = 0 := rfl
      rw [h1, h2]
      simp
    | cons b v2 =>
      have h1 : dotList (a :: v1) (b :: v2) = a * b + dotList v1 v2 := rfl
      have h2 : sumSq (a :: v1) = a * a + sumSq v1 := rfl
      have h3 : sumSq (b :: v2) = b * b + sumSq v2 := rfl
      rw [h1, h2, h3]
      have hIH := ih v2
      have hS1 := sumSq_nonneg v1
      have hS2 := sumSq_nonneg v2
      rcases eq_or_lt_of_le hS1 with hS1z | hS1pos
      · have hD : dotList v1 v2 = 0 := by
          have hle : dotList v1 v2 ^ 2 ≤ 0 := by
            calc dotList v1 v2 ^ 2 ≤ sumSq v1 * sumSq v2 := hIH
            _ = 0 := by rw [← hS1z]; ring
          have := sq_nonneg (dotList v1 v2)
          have h0 : dotList v1 v2 ^ 2 = 0 := le_antisymm hle this
          exact pow_eq_zero_iff (n := 2) (by norm_num) |>.mp h0
        rw [hD, ← hS1z]
        nlinarith [mul_nonneg (sq_nonneg a) hS2]
      · nlinarith [sq_nonneg (a * dotList v1 v2 - b * sumSq v1),
          mul_nonneg (add_nonneg (sq_nonneg a) hS1) (sub_nonneg.mpr hIH), hS1pos]

lemma abs_dotList_le (v1 v2 : List ℝ) :
    |dotList v1 v2| ≤ Real.sqrt (sumSq v1) * Real.sqrt (sumSq v2) := by
  have h1 : |dotList v1 v2| = Real.sqrt ((dotList v1 v2) ^ 2) := (Real.sqrt_sq_eq_abs _).symm
  rw [h1, ← Real.sqrt_mul (sumSq_nonneg v1)]
  exact Real.sqrt_le_sqrt (dotList_sq_le v1 v2)

/-- **C4** (counterexample): `similarity([1], [-1]) = -1 < 0`, so the
function's value is cosine similarity in `[-1, 1]`, not `[0, 1]` as the
claim states — negative dot products surface as negative scores. -/
theorem similarity_not_in_unit_interval :
    similarity [1] [-1] = -1 ∧ similarity [1] [-1] < 0 := by
  have h1 : sumSq [(1 : ℝ)] = 1 := by norm_num [sumSq, dotList]
  have h2 : sumSq [(-1 : ℝ)] = 1 := by norm_num [sumSq, dotList]
  have hd : dotList [(1 : ℝ)] [(-1 : ℝ)] = -1 := by norm_num [dotList]
  have hval : similarity [1] [-1] = -1 := by
    simp only [similarity, npNorm, h1, h2, hd, Real.sqrt_one]
    norm_num
  exact ⟨hval, by rw [hval]; norm_num⟩

/-- **C4** (amended): `similarity` returns cosine similarity, which lies
in `[-1, 1]`; and whenever either vector has zero norm it returns exactly
`0.0` instead of failing with a division by zero. -/
theorem similarity_bounds (v1 v2 : List ℝ) :
    -1 ≤ similarity v1 v2 ∧ similarity v1 v2 ≤ 1 ∧
    (npNorm v1 = 0 ∨ npNorm v2 = 0 → similarity v1 v2 = 0) := by
  by_cases hz : npNorm v1 = 0 ∨ npNorm v2 = 0
  · have h0 : similarity v1 v2 = 0 := by
      simp only [similarity]
      rw [if_pos hz]
    rw [h0]
    norm_num
  · have h0 : similarity v1 v2 = dotList v1 v2 / (npNorm v1 * npNorm v2) := by
      simp only [similarity]
      rw [if_neg hz]
    push_neg at hz
    have hn1 : 0 < npNorm v1 := lt_of_le_of_ne (Real.sqrt_nonneg _) (Ne.symm hz.1)
    have hn2 : 0 < npNorm v2 := lt_of_le_of_ne (Real.sqrt_nonneg _) (Ne.symm hz.2)
    have hprod : 0 < npNorm v1 * npNorm v2 := mul_pos hn1 hn2
    have habs : |dotList v1 v2| ≤ npNorm v1 * npNorm v2 := abs_dotList_le v1 v2
    have hle : |similarity v1 v2| ≤ 1 := by
      rw [h0, abs_div, abs_of_pos hprod]
      exact (div_le_one hprod).mpr habs
    obtain ⟨hlow, hhigh⟩ := abs_le.mp hle
    exact ⟨hlow, hhigh, fun h => absurd h (by push_neg; exact hz)⟩

/-- **C4** witness: the bounds theorem applied at concrete vectors — a
zero-norm first argument yields exactly `0`, and a generic pair stays in
`[-1, 1]`. -/
theorem similarity_bounds_witness :
    similarity [(0 : ℝ)] [(1 : ℝ)] = 0 ∧
    -1 ≤ similarity [(2 : ℝ)] [(3 : ℝ)] ∧ similarity [(2 : ℝ)] [(3 : ℝ)] ≤ 1 := by
  refine ⟨(similarity_bounds [0] [1]).2.2 (Or.inl ?_),
    (similarity_bounds [2] [3]).1, (similarity_bounds [2] [3]).2.1⟩
  have h0 : sumSq [(0 : ℝ)] = 0 := by norm_num [sumSq, dotList]
  rw [npNorm, h0, Real.sqrt_zero]

/-- **C7**: the reranker assigns *every* chunk the blend
`0.6 × similarity(embed(query), embed(content)) + 0.4 × priorScore` with
`priorScore` defaulting to `0.5` when no retrieval score is present, and
returns exactly the top-`min(reranking_top_k, n)` of the scored input
chunks: the output is sorted descending by `rerank_score`, the scored
chunks it omits form a remainder list none of whose scores exceeds any
returned score, output plus remainder is a permutation of all scored
inputs, the output length is `min(5, n)`, and an empty input yields an
empty output without error. -/
theorem rerank_blend_sort_truncate (encode : String → List ℝ) (dim : Nat) (query : String)
    (chunks : List RChunk) :
    (∀ c : RChunk,
      (scoreChunk encode dim (embed_text encode dim query) c).rerank_score =
        similarity (embed_text encode dim query) (embed_text encode dim c.content) * 0.6 +
          c.score.getD 0.5 * 0.4) ∧
    (∀ e ∈ rerank encode dim query chunks,
      e.rerank_score =
        similarity (embed_text encode dim query) (embed_text encode dim e.content) * 0.6 +
          e.score.getD 0.5 * 0.4) ∧
    (∀ e ∈ rerank encode dim query chunks, ∃ c ∈ chunks,
      e.chunk_id = c.chunk_id ∧ e.content = c.content ∧ e.score = c.score) ∧
    (rerank encode dim query chunks).Sorted rerankDesc ∧
    (∃ rest : List RerankedChunk,
      (rerank encode dim query chunks ++ rest).Perm
        (chunks.map (scoreChunk encode dim (embed_text encode dim query))) ∧
      ∀ r ∈ rest, ∀ e ∈ rerank encode dim query chunks,
        r.rerank_score ≤ e.rerank_score) ∧
    (rerank encode dim query chunks).length = min reranking_top_k chunks.length ∧
    (chunks = [] → rerank encode dim query chunks = []) := by
  cases chunks with
  | nil =>
    refine ⟨fun c => rfl, fun e he => absurd he (by simp [rerank]),
      fun e he => absurd he (by simp [rerank]), ?_, ?_, ?_, fun _ => rfl⟩
    · show List.Sorted rerankDesc []
      exact List.sorted_nil
    · refine ⟨[], ?_, fun r hr => absurd hr (by simp)⟩
      show List.Perm ([] ++ []) (List.map _ [])
      simp
    · show (List.length []) = min reranking_top_k 0
      simp
  | cons c0 cs =>
    have hre : rerank encode dim query (c0 :: cs) =
        (List.insertionSort rerankDesc
          ((c0 :: cs).map (scoreChunk encode dim (embed_text encode dim query)))).take
          reranking_top_k := rfl
    have hsorted : (List.insertionSort rerankDesc
        ((c0 :: cs).map (scoreChunk encode dim (embed_text encode dim query)))).Pairwise
          rerankDesc :=
      List.sorted_insertionSort rerankDesc _
    have hmem : ∀ e ∈ rerank encode dim query (c0 :: cs), ∃ c ∈ c0 :: cs,
        e = scoreChunk encode dim (embed_text encode dim query) c := by
      intro e he
      rw [hre] at he
      have he2 := (List.take_sublist _ _).mem he
      rw [List.mem_insertionSort] at he2
      obtain ⟨c, hc, hceq⟩ := List.mem_map.mp he2
      exact ⟨c, hc, hceq.symm⟩
    refine ⟨fun c => rfl, ?_, ?_, ?_, ?_, ?_, fun h => absurd h (by simp)⟩
    · intro e he
      obtain ⟨c, _, hceq⟩ := hmem e he
      rw [hceq]
      rfl
    · intro e he
      obtain ⟨c, hc, hceq⟩ := hmem e he
      exact ⟨c, hc, by rw [hceq]; rfl, by rw [hceq]; rfl, by rw [hceq]; rfl⟩
    · rw [hre]
      exact List.Pairwise.sublist (List.take_sublist _ _) hsorted
    · refine ⟨(List.insertionSort rerankDesc
        ((c0 :: cs).map (scoreChunk encode dim (embed_text encode dim query)))).drop
          reranking_top_k, ?_, ?_⟩
      · rw [hre, List.take_append_drop]
        exact List.perm_insertionSort rerankDesc _
      · intro r hr e he
        rw [← List.take_append_drop reranking_top_k (List.insertionSort rerankDesc
          ((c0 :: cs).map (scoreChunk encode dim (embed_text encode dim query))))] at hsorted
        have hsplit := (List.pairwise_append.mp hsorted).2.2
        rw [hre] at he
        exact hsplit e he r hr
    · rw [hre, List.length_take, List.length_insertionSort, List.length_map]

/-- **C7** witness: the reranker theorem at a concrete two-chunk input
(one chunk without a retrieval score, one with) — the output has length
`min(5, 2) = 2`, is sorted descending, and together with its (empty)
remainder is a permutation of both scored inputs — and at the empty
input, which yields the empty output. -/
theorem rerank_blend_sort_truncate_witness :
    (rerank rerankOracle 1 "q" [rcA, rcB]).length = 2 ∧
    (rerank rerankOracle 1 "q" [rcA, rcB]).Sorted rerankDesc ∧
    (∃ rest : List RerankedChunk,
      (rerank rerankOracle 1 "q" [rcA, rcB] ++ rest).Perm
        ([rcA, rcB].map (scoreChunk rerankOracle 1 (embed_text rerankOracle 1 "q"))) ∧
      ∀ r ∈ rest, ∀ e ∈ rerank rerankOracle 1 "q" [rcA, rcB],
        r.rerank_score ≤ e.rerank_score) ∧
    rerank rerankOracle 1 "q" [] = [] := by
  have h := rerank_blend_sort_truncate rerankOracle 1 "q" [rcA, rcB]
  have h0 := rerank_blend_sort_truncate rerankOracle 1 "q" []
  refine ⟨?_, h.2.2.2.1, h.2.2.2.2.1, h0.2.2.2.2.2.2 rfl⟩
  rw [h.2.2.2.2.2.1]
  decide

/-- **C6**: `hybrid_search` fails with the configuration error exactly
when `|dense_weight + sparse_weight - 1|` exceeds `0.01` (no
normalization of the weights), and in particular `(0.7, 0.2)` fails while
`(0.7, 0.3)` succeeds. -/
theorem hybrid_search_weight_validation :
    (∀ (vs : String → Nat → List Hit) (st : BM25State) (q : String) (k : Nat) (dw sw : ℚ),
      (hybrid_search vs st q k dw sw =
          Except.error "dense_weight + sparse_weight must equal 1.0" ↔
        1 / 100 < |dw + sw - 1|) ∧
      ((∃ res, hybrid_search vs st q k dw sw = Except.ok res) ↔ |dw + sw - 1| ≤ 1 / 100)) ∧
    (∀ (vs : String → Nat → List Hit) (st : BM25State) (q : String) (k : Nat),
      hybrid_search vs st q k (7 / 10) (2 / 10) =
        Except.error "dense_weight + sparse_weight must equal 1.0" ∧
      ∃ res, hybrid_search vs st q k (7 / 10) (3 / 10) = Except.ok res) := by
  have hmain : ∀ (vs : String → Nat → List Hit) (st : BM25State) (q : String) (k : Nat)
      (dw sw : ℚ),
      (hybrid_search vs st q k dw sw =
          Except.error "dense_weight + sparse_weight must equal 1.0" ↔
        1 / 100 < |dw + sw - 1|) ∧
      ((∃ res, hybrid_search vs st q k dw sw = Except.ok res) ↔ |dw + sw - 1| ≤ 1 / 100) := by
    intro vs st q k dw sw
    by_cases hw : 1 / 100 < |dw + sw - 1|
    · have herr : hybrid_search vs st q k dw sw =
          Except.error "dense_weight + sparse_weight must equal 1.0" := by
        rw [hybrid_search, if_pos hw]
      refine ⟨⟨fun _ => hw, fun _ => herr⟩, ?_⟩
      constructor
      · rintro ⟨res, hres⟩
        rw [herr] at hres
        cases hres
      · intro hle
        exact absurd hw (not_lt.mpr hle)
    · have hok : hybrid_search vs st q k dw sw =
          Except.ok ((reciprocal_rank_fusion (vs q (k * 2)) (bm25_search st q (k * 2))
            dw sw 60).take k) := by
        rw [hybrid_search, if_neg hw]
      refine ⟨⟨fun h => ?_, fun h => absurd h hw⟩, ⟨fun _ => not_lt.mp hw, fun _ => ⟨_, hok⟩⟩⟩
      rw [hok] at h
      cases h
  refine ⟨hmain, fun vs st q k => ⟨?_, ?_⟩⟩
  · refine ((hmain vs st q k (7 / 10) (2 / 10)).1).mpr ?_
    have habs : |(7 : ℚ) / 10 + 2 / 10 - 1| = 1 / 10 := by
      have hval : (7 : ℚ) / 10 + 2 / 10 - 1 = -(1 / 10) := by norm_num
      rw [hval, abs_neg, abs_of_nonneg]
      norm_num
    rw [habs]
    norm_num
  · refine ((hmain vs st q k (7 / 10) (3 / 10)).2).mpr ?_
    have habs : |(7 : ℚ) / 10 + 3 / 10 - 1| = 0 := by
      have hval : (7 : ℚ) / 10 + 3 / 10 - 1 = 0 := by norm_num
      rw [hval, abs_zero]
    rw [habs]
    norm_num

/-- **C9**: calling the sparse BM25 search when no index has been built
(`bm25_index is None`, as after `__init__` and before `index_for_bm25`)
returns the empty list instead of raising. -/
theorem bm25_search_unbuilt_empty (st : BM25State) (query : String) (top_k : Nat)
    (h : st.bm25_index = none) :
    bm25_search st query top_k = [] := by
  rw [bm25_search, h]

/-- **C9** witness: searching the freshly initialised state returns `[]`. -/
theorem bm25_search_unbuilt_empty_witness :
    bm25_search initHybridState "What is RAG?" 5 = [] :=
  bm25_search_unbuilt_empty initHybridState "What is RAG?" 5 rfl

/-- **C8** (counterexample): with a retrieval stage that completes
(storing a retrieved chunk) followed by a generation stage that raises,
`RAGWorkflow.run` returns a state whose `error` is populated but whose
`retrieved_chunks` is the *initial* empty list — the intermediate result
computed before the failure is discarded, contradicting the claim. -/
theorem workflow_discards_intermediate_results :
    (RAGWorkflow.run [stageRetrieve, stageGenerateFail] "q" none).error = some "LLM failure" ∧
    (RAGWorkflow.run [stageRetrieve, stageGenerateFail] "q" none).retrieved_chunks = [] ∧
    ∃ s, runStages [stageRetrieve] (initialState "q" none) = Except.ok s ∧
      s.retrieved_chunks = [{ chunk_id := "c1", content := "text", score := none }] :=
  ⟨rfl, rfl, ⟨_, rfl, rfl⟩⟩

/-- **C8** (amended): when any stage raises, the caller receives the
*initial* state with the `error` field populated with the stage's
message: `retrieved_chunks` and `reranked_chunks` are the initial empty
lists, so intermediate results of completed stages are discarded rather
than preserved. -/
theorem workflow_error_returns_initial_state
    (stages : List (AgentState → Except String AgentState)) (query : String)
    (conversation_id : Option String) (e : String)
    (h : runStages stages (initialState query conversation_id) = Except.error e) :
    RAGWorkflow.run stages query conversation_id =
      { initialState query conversation_id with error := some e } ∧
    (RAGWorkflow.run stages query conversation_id).error = some e ∧
    (RAGWorkflow.run stages query conversation_id).retrieved_chunks = [] ∧
    (RAGWorkflow.run stages query conversation_id).reranked_chunks = [] := by
  have hr : RAGWorkflow.run stages query conversation_id =
      { initialState query conversation_id with error := some e } := by
    rw [RAGWorkflow.run]
    simp only [h]
  rw [hr]
  exact ⟨rfl, rfl, rfl, rfl⟩

/-- **C8** witness: the amended theorem applied to the one-stage pipeline
whose stage raises. -/
theorem workflow_error_returns_initial_state_witness :
    RAGWorkflow.run [stageGenerateFail] "q" none =
      { initialState "q" none with error := some "LLM failure" } :=
  (workflow_error_returns_initial_state [stageGenerateFail] "q" none "LLM failure" rfl).1

lemma setEntry_append :
    ∀ (acc : List FusedEntry) (e : FusedEntry), e.chunk_id ∉ entryIds acc →
      setEntry acc e = acc ++ [e] := by
  intro acc
  induction acc with
  | nil => intro e _; rfl
  | cons x xs ih =>
    intro e he
    rw [setEntry]
    rw [entryIds, List.map_cons, List.mem_cons] at he
    push_neg at he
    rw [if_neg (fun h => he.1 h.symm)]
    rw [ih e he.2]
    rfl

lemma entryIds_denseList (dense_weight : ℚ) (k : Nat) :
    ∀ (l : List Hit) (n : Nat), entryIds (denseList dense_weight k n l) = hitIds l := by
  intro l
  induction l with
  | nil => intro n; rfl
  | cons h rest ih =>
    intro n
    rw [denseList, hitIds, List.map_cons, entryIds, List.map_cons]
    rw [← hitIds, ← entryIds, ih (n + 1)]
    rfl

lemma addDenseAux_eq (dense_weight : ℚ) (k : Nat) :
    ∀ (l : List Hit) (n : Nat) (acc : List FusedEntry),
      (∀ h ∈ l, h.chunk_id ∉ entryIds acc) → (hitIds l).Nodup →
      addDenseAux dense_weight k n l acc = acc ++ denseList dense_weight k n l := by
  intro l
  induction l with
  | nil => intro n acc _ _; simp [addDenseAux, denseList]
  | cons h rest ih =>
    intro n acc hdisj hnd
    rw [addDenseAux, denseList]
    rw [setEntry_append acc _ (hdisj h (List.mem_cons_self _ _))]
    rw [hitIds, List.map_cons, List.nodup_cons] at hnd
    rw [ih (n + 1) (acc ++ [denseEntry dense_weight k n h]) ?_ hnd.2]
    · simp
    · intro h' hh'
      rw [entryIds, List.map_append, List.mem_append]
      push_neg
      refine ⟨fun hc => hdisj h' (List.mem_cons_of_mem _ hh') hc, ?_⟩
      intro hc
      simp only [entryIds, List.map_cons, List.map_nil, List.mem_singleton] at hc
      have : h'.chunk_id ∈ List.map Hit.chunk_id rest := List.mem_map_of_mem _ hh'
      rw [hc] at this
      exact hnd.1 this

lemma bumpSparse_chunk_id (sparse_weight : ℚ) (k rank : Nat) (h : Hit) (e : FusedEntry) :
    (bumpSparse sparse_weight k rank h e).chunk_id = e.chunk_id := rfl

lemma hitIds_cons (h : Hit) (rest : List Hit) :
    hitIds (h :: rest) = h.chunk_id :: hitIds rest := rfl

lemma findHit0_none_iff :
    ∀ (l : List Hit) (id : String), findHit0 l id = none ↔ id ∉ hitIds l := by
  intro l
  induction l with
  | nil => intro id; simp [findHit0, hitIds]
  | cons h rest ih =>
    intro id
    rw [findHit0, hitIds_cons]
    by_cases heq : h.chunk_id = id
    · rw [if_pos heq]
      simp [heq]
    · rw [if_neg heq]
      constructor
      · intro hf
        rw [List.mem_cons]
        push_neg
        exact ⟨fun hc => heq hc.symm, (ih id).mp (Option.map_eq_none'.mp hf)⟩
      · intro hmem
        rw [List.mem_cons] at hmem
        push_neg at hmem
        rw [Option.map_eq_none']
        exact (ih id).mpr hmem.2

lemma findHit0_some :
    ∀ (l : List Hit) (id : String) (j : Nat) (g : Hit),
      findHit0 l id = some (j, g) →
      l.get? j = some g ∧ g.chunk_id = id ∧ rankIn (hitIds l) id = some (j + 1) := by
  intro l
  induction l with
  | nil => intro id j g hf; cases hf
  | cons h rest ih =>
    intro id j g hf
    rw [findHit0] at hf
    by_cases heq : h.chunk_id = id
    · rw [if_pos heq] at hf
      simp only [Option.some.injEq, Prod.mk.injEq] at hf
      obtain ⟨hj, hg⟩ := hf
      subst hj
      subst hg
      refine ⟨rfl, heq, ?_⟩
      rw [hitIds_cons, rankIn, if_pos heq]
    · rw [if_neg heq] at hf
      cases hrec : findHit0 rest id with
      | none => rw [hrec] at hf; cases hf
      | some p =>
        rw [hrec] at hf
        obtain ⟨j', g'⟩ := p
        simp only [Option.map_some', Option.some.injEq, Prod.mk.injEq] at hf
        obtain ⟨hj, hg⟩ := hf
        subst hj
        subst hg
        obtain ⟨h1, h2, h3⟩ := ih id j' g' hrec
        refine ⟨h1, h2, ?_⟩
        rw [hitIds_cons, rankIn, if_neg heq, h3]
        rfl

lemma rankIn_none_iff :
    ∀ (ids : List String) (id : String), rankIn ids id = none ↔ id ∉ ids := by
  intro ids
  induction ids with
  | nil => intro id; simp [rankIn]
  | cons x xs ih =>
    intro id
    rw [rankIn]
    by_cases heq : x = id
    · rw [if_pos heq]; simp [heq]
    · rw [if_neg heq]
      constructor
      · intro hf
        rw [List.mem_cons]
        push_neg
        exact ⟨fun hc => heq hc.symm, (ih id).mp (Option.map_eq_none'.mp hf)⟩
      · intro hmem
        rw [List.mem_cons] at hmem
        push_neg at hmem
        rw [Option.map_eq_none']
        exact (ih id).mpr hmem.2

lemma rankIn_of_get (ids : List String) (hnd : ids.Nodup) :
    ∀ (j : Nat) (id : String), ids.get? j = some id → rankIn ids id = some (j + 1) := by
  induction ids with
  | nil => intro j id hget; cases hget
  | cons x xs ih =>
    intro j id hget
    cases j with
    | zero =>
      rw [List.get?] at hget
      injection hget with hx
      rw [rankIn, if_pos hx]
    | succ j' =>
      rw [List.get?] at hget
      have hmem : id ∈ xs := List.get?_mem hget
      have hne : x ≠ id := fun h => (List.nodup_cons.mp hnd).1 (h ▸ hmem)
      rw [rankIn, if_neg hne, ih (List.nodup_cons.mp hnd).2 j' id hget]
      rfl

lemma applySparse_chunk_id (sparse_weight : ℚ) (k n : Nat) (sparse : List Hit)
    (e : FusedEntry) : (applySparse sparse_weight k n sparse e).chunk_id = e.chunk_id := by
  rw [applySparse]
  cases hf : findHit0 sparse e.chunk_id with
  | none => rfl
  | some p => rfl

lemma applySparse_cons_ne (sparse_weight : ℚ) (k n : Nat) (h : Hit) (rest : List Hit)
    (e : FusedEntry) (hne : e.chunk_id ≠ h.chunk_id) :
    applySparse sparse_weight k (n + 1) rest e = applySparse sparse_weight k n (h :: rest) e := by
  rw [applySparse, applySparse]
  rw [findHit0, if_neg (fun hc => hne hc.symm)]
  cases hf : findHit0 rest e.chunk_id with
  | none => rfl
  | some p =>
    simp only [Option.map_some']
    have : n + 1 + p.1 = n + (p.1 + 1) := by omega
    rw [this]

lemma applySparse_cons (sparse_weight : ℚ) (k n : Nat) (h : Hit) (rest : List Hit)
    (hnotin : h.chunk_id ∉ hitIds rest) (e : FusedEntry) :
    applySparse sparse_weight k (n + 1) rest
        (if e.chunk_id = h.chunk_id then bumpSparse sparse_weight k n h e else e) =
      applySparse sparse_weight k n (h :: rest) e := by
  by_cases heq : e.chunk_id = h.chunk_id
  · rw [if_pos heq]
    rw [applySparse, applySparse]
    rw [bumpSparse_chunk_id, heq]
    rw [(findHit0_none_iff rest h.chunk_id).mpr hnotin]
    rw [findHit0, if_pos rfl]
    rfl
  · rw [if_neg heq]
    exact applySparse_cons_ne sparse_weight k n h rest e heq

lemma entryIds_map_bump (sparse_weight : ℚ) (k rank : Nat) (h : Hit) :
    ∀ acc : List FusedEntry,
      entryIds (acc.map (fun e =>
        if e.chunk_id = h.chunk_id then bumpSparse sparse_weight k rank h e else e)) =
      entryIds acc := by
  intro acc
  induction acc with
  | nil => rfl
  | cons x xs ih =>
    rw [List.map_cons, entryIds, List.map_cons, ← entryIds, ih]
    by_cases heq : x.chunk_id = h.chunk_id
    · rw [if_pos heq, bumpSparse_chunk_id]
      rfl
    · rw [if_neg heq]
      rfl

lemma newSparse_seen_irrel (sparse_weight : ℚ) (k : Nat) :
    ∀ (rest : List Hit) (n : Nat) (seen : List String) (x : String),
      x ∉ hitIds rest →
      newSparse sparse_weight k n rest (seen ++ [x]) = newSparse sparse_weight k n rest seen := by
  intro rest
  induction rest with
  | nil => intro n seen x _; rfl
  | cons h r ih =>
    intro n seen x hx
    rw [hitIds_cons, List.mem_cons] at hx
    push_neg at hx
    rw [newSparse, newSparse]
    have hmem : (h.chunk_id ∈ seen ++ [x]) ↔ h.chunk_id ∈ seen := by
      rw [List.mem_append, List.mem_singleton]
      constructor
      · rintro (hs | hxx)
        · exact hs
        · exact absurd hxx.symm hx.1
      · exact Or.inl
    by_cases hin : h.chunk_id ∈ seen
    · rw [if_pos (hmem.mpr hin), if_pos hin]
      exact ih (n + 1) seen x hx.2
    · rw [if_neg (fun hc => hin (hmem.mp hc)), if_neg hin]
      rw [ih (n + 1) seen x hx.2]

lemma addSparseAux_eq (sparse_weight : ℚ) (k : Nat) :
    ∀ (sparse : List Hit) (n : Nat) (acc : List FusedEntry), (hitIds sparse).Nodup →
      addSparseAux sparse_weight k n sparse acc =
        acc.map (applySparse sparse_weight k n sparse) ++
          newSparse sparse_weight k n sparse (entryIds acc) := by
  intro sparse
  induction sparse with
  | nil =>
    intro n acc _
    rw [addSparseAux, newSparse, List.append_nil]
    symm
    have hid : ∀ e ∈ acc, applySparse sparse_weight k n [] e = id e := by
      intro e _
      rw [applySparse, findHit0]
      rfl
    rw [List.map_congr_left hid, List.map_id]
  | cons h rest ih =>
    intro n acc hnd
    rw [hitIds, List.map_cons, List.nodup_cons, ← hitIds] at hnd
    obtain ⟨hnotin, hnd'⟩ := hnd
    rw [addSparseAux]
    by_cases hin : acc.any (fun e => e.chunk_id = h.chunk_id)
    · rw [if_pos hin]
      rw [ih (n + 1) _ hnd']
      rw [List.map_map, entryIds_map_bump]
      have hcomp : (applySparse sparse_weight k (n + 1) rest ∘ fun e =>
          if e.chunk_id = h.chunk_id then bumpSparse sparse_weight k n h e else e) =
          applySparse sparse_weight k n (h :: rest) := by
        funext e
        exact applySparse_cons sparse_weight k n h rest hnotin e
      rw [hcomp]
      have hseen : h.chunk_id ∈ entryIds acc := by
        obtain ⟨e, he, heq⟩ := List.any_eq_true.mp hin
        have heq' : e.chunk_id = h.chunk_id := of_decide_eq_true heq
        exact heq' ▸ List.mem_map_of_mem FusedEntry.chunk_id he
      conv_rhs => rw [newSparse, if_pos hseen]
    · rw [if_neg hin]
      rw [ih (n + 1) _ hnd']
      rw [List.map_append]
      have hso : (List.map (applySparse sparse_weight k (n + 1) rest)
          [sparseOnlyEntry sparse_weight k n h]) = [sparseOnlyEntry sparse_weight k n h] := by
        rw [List.map_singleton, applySparse]
        rw [show (sparseOnlyEntry sparse_weight k n h).chunk_id = h.chunk_id from rfl]
        rw [(findHit0_none_iff rest h.chunk_id).mpr hnotin]
      rw [hso]
      have hnotacc : h.chunk_id ∉ entryIds acc := by
        intro hc
        obtain ⟨e, he, heq⟩ := List.mem_map.mp hc
        rw [List.any_eq_true] at hin
        push_neg at hin
        exact hin e he (decide_eq_true heq)
      have hmap : acc.map (applySparse sparse_weight k (n + 1) rest) =
          acc.map (applySparse sparse_weight k n (h :: rest)) := by
        apply List.map_congr_left
        intro e he
        apply applySparse_cons_ne
        intro hc
        exact hnotacc (hc ▸ List.mem_map_of_mem FusedEntry.chunk_id he)
      rw [hmap]
      have hids : entryIds (acc ++ [sparseOnlyEntry sparse_weight k n h]) =
          entryIds acc ++ [h.chunk_id] := by
        rw [entryIds, List.map_append]
        rfl
      rw [hids, newSparse_seen_irrel sparse_weight k rest (n + 1) _ _ hnotin]
      conv_rhs => rw [newSparse, if_neg hnotacc]
      simp

lemma mem_denseList (dense_weight : ℚ) (k : Nat) :
    ∀ (l : List Hit) (n : Nat) (x : FusedEntry),
      x ∈ denseList dense_weight k n l ↔
        ∃ j h, l.get? j = some h ∧ x = denseEntry dense_weight k (n + j) h := by
  intro l
  induction l with
  | nil =>
    intro n x
    simp [denseList]
  | cons h rest ih =>
    intro n x
    rw [denseList, List.mem_cons, ih (n + 1)]
    constructor
    · rintro (rfl | ⟨j, g, hget, rfl⟩)
      · exact ⟨0, h, rfl, by rw [Nat.add_zero]⟩
      · exact ⟨j + 1, g, hget, by rw [show n + (j + 1) = n + 1 + j by omega]⟩
    · rintro ⟨j, g, hget, rfl⟩
      cases j with
      | zero =>
        rcases hget
        left
        rw [Nat.add_zero]
      | succ j' =>
        right
        exact ⟨j', g, hget, by rw [show n + 1 + j' = n + (j' + 1) by omega]⟩

lemma mem_newSparse (sparse_weight : ℚ) (k : Nat) :
    ∀ (sparse : List Hit) (n : Nat) (seen : List String) (x : FusedEntry),
      x ∈ newSparse sparse_weight k n sparse seen →
      ∃ j h, sparse.get? j = some h ∧ h.chunk_id ∉ seen ∧
        x = sparseOnlyEntry sparse_weight k (n + j) h := by
  intro sparse
  induction sparse with
  | nil => intro n seen x hx; cases hx
  | cons h rest ih =>
    intro n seen x hx
    rw [newSparse] at hx
    by_cases hin : h.chunk_id ∈ seen
    · rw [if_pos hin] at hx
      obtain ⟨j, g, hget, hnot, hxeq⟩ := ih (n + 1) seen x hx
      exact ⟨j + 1, g, hget, hnot, by rw [show n + (j + 1) = n + 1 + j by omega]; exact hxeq⟩
    · rw [if_neg hin] at hx
      rcases List.mem_cons.mp hx with rfl | hx
      · exact ⟨0, h, rfl, hin, by rw [Nat.add_zero]⟩
      · obtain ⟨j, g, hget, hnot, hxeq⟩ := ih (n + 1) seen x hx
        exact ⟨j + 1, g, hget, hnot, by rw [show n + (j + 1) = n + 1 + j by omega]; exact hxeq⟩

lemma newSparse_mem_of (sparse_weight : ℚ) (k : Nat) :
    ∀ (sparse : List Hit) (n : Nat) (seen : List String) (j : Nat) (h : Hit),
      sparse.get? j = some h → h.chunk_id ∉ seen →
      sparseOnlyEntry sparse_weight k (n + j) h ∈ newSparse sparse_weight k n sparse seen := by
  intro sparse
  induction sparse with
  | nil => intro n seen j h hget; cases hget
  | cons h0 rest ih =>
    intro n seen j h hget hnot
    rw [newSparse]
    cases j with
    | zero =>
      rw [List.get?] at hget
      rcases hget
      rw [if_neg hnot, Nat.add_zero]
      exact List.mem_cons_self _ _
    | succ j' =>
      rw [List.get?] at hget
      have hmem := ih (n + 1) seen j' h hget hnot
      rw [show n + (j' + 1) = n + 1 + j' by omega]
      by_cases hin : h0.chunk_id ∈ seen
      · rw [if_pos hin]
        exact hmem
      · rw [if_neg hin]
        exact List.mem_cons_of_mem _ hmem

lemma wScore_of_rank (weight : ℚ) (k : Nat) (ids : List String) (id : String) (r : Nat)
    (h : rankIn ids id = some r) : wScore weight k ids id = weight / ((k : ℚ) + r) := by
  rw [wScore, h]

lemma wScore_of_none (weight : ℚ) (k : Nat) (ids : List String) (id : String)
    (h : rankIn ids id = none) : wScore weight k ids id = 0 := by
  rw [wScore, h]

/-- **C1**: weighted reciprocal rank fusion.  For ranked hit lists with
distinct ids, every fused entry's score is the sum of the two partial
scores `weight / (60 + rank)` contributed by the lists containing its
`chunk_id` (zero, with a `none` rank, for a list not containing it; both
ranks recorded when both lists contain it); the fused output covers
exactly the union of the two id sets; and it is ordered by fused score,
descending. -/
theorem rrf_fuses_ranked_lists (dense sparse : List Hit) (dense_weight sparse_weight : ℚ)
    (hd : (hitIds dense).Nodup) (hs : (hitIds sparse).Nodup) :
    (∀ e ∈ reciprocal_rank_fusion dense sparse dense_weight sparse_weight 60,
      e.score = wScore dense_weight 60 (hitIds dense) e.chunk_id +
        wScore sparse_weight 60 (hitIds sparse) e.chunk_id ∧
      e.dense_rank = rankIn (hitIds dense) e.chunk_id ∧
      e.sparse_rank = rankIn (hitIds sparse) e.chunk_id) ∧
    (∀ id : String,
      (∃ e ∈ reciprocal_rank_fusion dense sparse dense_weight sparse_weight 60,
        e.chunk_id = id) ↔ (id ∈ hitIds dense ∨ id ∈ hitIds sparse)) ∧
    (reciprocal_rank_fusion dense sparse dense_weight sparse_weight 60).Sorted scoreDesc := by
  have hpre : addSparseAux sparse_weight 60 1 sparse (addDenseAux dense_weight 60 1 dense []) =
      (denseList dense_weight 60 1 dense).map (applySparse sparse_weight 60 1 sparse) ++
        newSparse sparse_weight 60 1 sparse (hitIds dense) := by
    rw [addDenseAux_eq dense_weight 60 dense 1 [] (fun h _ => by simp [entryIds]) hd]
    rw [List.nil_append]
    rw [addSparseAux_eq sparse_weight 60 sparse 1 _ hs]
    rw [entryIds_denseList]
  have hmem_iff : ∀ x, x ∈ reciprocal_rank_fusion dense sparse dense_weight sparse_weight 60 ↔
      x ∈ (denseList dense_weight 60 1 dense).map (applySparse sparse_weight 60 1 sparse) ++
        newSparse sparse_weight 60 1 sparse (hitIds dense) := by
    intro x
    rw [reciprocal_rank_fusion, List.mem_insertionSort, hpre]
  refine ⟨?_, ?_, ?_⟩
  · intro e he
    rw [hmem_iff] at he
    rcases List.mem_append.mp he with hd1 | hs1
    · obtain ⟨x, hx, hxe⟩ := List.mem_map.mp hd1
      obtain ⟨j, h, hget, hxeq⟩ := (mem_denseList dense_weight 60 dense 1 x).mp hx
      subst hxeq
      have hgetid : (hitIds dense).get? j = some h.chunk_id := by
        rw [hitIds, List.get?_map, hget]
        rfl
      have hrankd : rankIn (hitIds dense) h.chunk_id = some (j + 1) :=
        rankIn_of_get (hitIds dense) hd j h.chunk_id hgetid
      cases hfh : findHit0 sparse h.chunk_id with
      | none =>
        have hnots : h.chunk_id ∉ hitIds sparse := (findHit0_none_iff _ _).mp hfh
        have hranks : rankIn (hitIds sparse) h.chunk_id = none :=
          (rankIn_none_iff _ _).mpr hnots
        have he2 : e = denseEntry dense_weight 60 (1 + j) h := by
          rw [← hxe, applySparse]
          rw [show (denseEntry dense_weight 60 (1 + j) h).chunk_id = h.chunk_id from rfl, hfh]
        rw [he2]
        refine ⟨?_, ?_, ?_⟩
        · rw [show (denseEntry dense_weight 60 (1 + j) h).chunk_id = h.chunk_id from rfl,
            wScore_of_rank dense_weight 60 _ _ _ hrankd, wScore_of_none sparse_weight 60 _ _ hranks,
            add_zero, Nat.add_comm 1 j]
          rfl
        · rw [show (denseEntry dense_weight 60 (1 + j) h).chunk_id = h.chunk_id from rfl, hrankd]
          rw [show (denseEntry dense_weight 60 (1 + j) h).dense_rank = some (1 + j) from rfl,
            Nat.add_comm 1 j]
        · rw [show (denseEntry dense_weight 60 (1 + j) h).chunk_id = h.chunk_id from rfl, hranks]
          rfl
      | some p =>
        obtain ⟨j', g⟩ := p
        obtain ⟨hgets, hgid, hranks⟩ := findHit0_some sparse h.chunk_id j' g hfh
        have he2 : e = bumpSparse sparse_weight 60 (1 + j') g
            (denseEntry dense_weight 60 (1 + j) h) := by
          rw [← hxe, applySparse]
          rw [show (denseEntry dense_weight 60 (1 + j) h).chunk_id = h.chunk_id from rfl, hfh]
        have hchunk : (bumpSparse sparse_weight 60 (1 + j') g
            (denseEntry dense_weight 60 (1 + j) h)).chunk_id = h.chunk_id := rfl
        rw [he2]
        refine ⟨?_, ?_, ?_⟩
        · rw [hchunk, wScore_of_rank dense_weight 60 _ _ _ hrankd,
            wScore_of_rank sparse_weight 60 _ _ _ hranks]
          rw [show (bumpSparse sparse_weight 60 (1 + j') g
              (denseEntry dense_weight 60 (1 + j) h)).score =
            dense_weight / ((60 : ℚ) + (1 + j : Nat)) +
              sparse_weight / ((60 : ℚ) + (1 + j' : Nat)) from rfl]
          rw [Nat.add_comm 1 j, Nat.add_comm 1 j']
          rfl
        · rw [hchunk, hrankd]
          rw [show (bumpSparse sparse_weight 60 (1 + j') g
              (denseEntry dense_weight 60 (1 + j) h)).dense_rank = some (1 + j) from rfl,
            Nat.add_comm 1 j]
        · rw [hchunk, hranks]
          rw [show (bumpSparse sparse_weight 60 (1 + j') g
              (denseEntry dense_weight 60 (1 + j) h)).sparse_rank = some (1 + j') from rfl,
            Nat.add_comm 1 j']
    · obtain ⟨j, h, hget, hnot, hxeq⟩ :=
        mem_newSparse sparse_weight 60 sparse 1 (hitIds dense) e hs1
      subst hxeq
      have hchunk : (sparseOnlyEntry sparse_weight 60 (1 + j) h).chunk_id = h.chunk_id := rfl
      have hgetid : (hitIds sparse).get? j = some h.chunk_id := by
        rw [hitIds, List.get?_map, hget]
        rfl
      have hranks : rankIn (hitIds sparse) h.chunk_id = some (j + 1) :=
        rankIn_of_get (hitIds sparse) hs j h.chunk_id hgetid
      have hrankd : rankIn (hitIds dense) h.chunk_id = none :=
        (rankIn_none_iff _ _).mpr hnot
      refine ⟨?_, ?_, ?_⟩
      · rw [hchunk, wScore_of_none dense_weight 60 _ _ hrankd,
          wScore_of_rank sparse_weight 60 _ _ _ hranks, zero_add]
        rw [show (sparseOnlyEntry sparse_weight 60 (1 + j) h).score =
          sparse_weight / ((60 : ℚ) + (1 + j : Nat)) from rfl, Nat.add_comm 1 j]
        rfl
      · rw [hchunk, hrankd]
        rfl
      · rw [hchunk, hranks]
        rw [show (sparseOnlyEntry sparse_weight 60 (1 + j) h).sparse_rank = some (1 + j) from rfl,
          Nat.add_comm 1 j]
  · intro id
    constructor
    · rintro ⟨e, he, rfl⟩
      rw [hmem_iff] at he
      rcases List.mem_append.mp he with hd1 | hs1
      · obtain ⟨x, hx, hxe⟩ := List.mem_map.mp hd1
        obtain ⟨j, h, hget, hxeq⟩ := (mem_denseList dense_weight 60 dense 1 x).mp hx
        left
        rw [← hxe, applySparse_chunk_id, hxeq]
        rw [show (denseEntry dense_weight 60 (1 + j) h).chunk_id = h.chunk_id from rfl]
        exact List.get?_mem (by rw [hitIds, List.get?_map, hget]; rfl :
          (hitIds dense).get? j = some h.chunk_id)
      · obtain ⟨j, h, hget, hnot, hxeq⟩ :=
          mem_newSparse sparse_weight 60 sparse 1 (hitIds dense) e hs1
        right
        rw [hxeq]
        rw [show (sparseOnlyEntry sparse_weight 60 (1 + j) h).chunk_id = h.chunk_id from rfl]
        exact List.get?_mem (by rw [hitIds, List.get?_map, hget]; rfl :
          (hitIds sparse).get? j = some h.chunk_id)
    · intro hcase
      by_cases hdd : id ∈ hitIds dense
      · obtain ⟨j, hgetid⟩ := List.mem_iff_get?.mp hdd
        have hh : ∃ h, dense.get? j = some h ∧ h.chunk_id = id := by
          rw [hitIds, List.get?_map] at hgetid
          cases hg : dense.get? j with
          | none => rw [hg] at hgetid; cases hgetid
          | some h =>
            rw [hg] at hgetid
            exact ⟨h, rfl, by injection hgetid⟩
        obtain ⟨h, hget, hid⟩ := hh
        refine ⟨applySparse sparse_weight 60 1 sparse (denseEntry dense_weight 60 (1 + j) h),
          ?_, ?_⟩
        · rw [hmem_iff]
          refine List.mem_append.mpr (Or.inl (List.mem_map_of_mem _ ?_))
          exact (mem_denseList dense_weight 60 dense 1 _).mpr ⟨j, h, hget, rfl⟩
        · rw [applySparse_chunk_id]
          exact hid
      · rcases hcase with hdm | hsm
        · exact absurd hdm hdd
        · obtain ⟨j, hgetid⟩ := List.mem_iff_get?.mp hsm
          have hh : ∃ h, sparse.get? j = some h ∧ h.chunk_id = id := by
            rw [hitIds, List.get?_map] at hgetid
            cases hg : sparse.get? j with
            | none => rw [hg] at hgetid; cases hgetid
            | some h =>
              rw [hg] at hgetid
              exact ⟨h, rfl, by injection hgetid⟩
          obtain ⟨h, hget, hid⟩ := hh
          refine ⟨sparseOnlyEntry sparse_weight 60 (1 + j) h, ?_, hid⟩
          rw [hmem_iff]
          refine List.mem_append.mpr (Or.inr ?_)
          exact newSparse_mem_of sparse_weight 60 sparse 1 _ j h hget (hid ▸ hdd)
  · rw [reciprocal_rank_fusion]
    exact List.sorted_insertionSort scoreDesc _

/-- **C1** witness: the fusion theorem instantiated at the spec's
concrete example, dense ranks `[A,B,C]` and sparse ranks `[B,A,D]` with
weights `0.7/0.3`: `A` scores `0.7/61 + 0.3/62`, `B` scores
`0.7/62 + 0.3/61`, `C` scores `0.7/63`, `D` scores `0.3/63`, and the
output comes back in descending-score order `A, B, C, D`. -/
theorem rrf_fuses_ranked_lists_witness :
    ((hitIds [hitA, hitB, hitC]).Nodup ∧ (hitIds [hitB, hitA, hitD]).Nodup) ∧
    (∀ e ∈ reciprocal_rank_fusion [hitA, hitB, hitC] [hitB, hitA, hitD] (7 / 10) (3 / 10) 60,
      e.score = wScore (7 / 10) 60 (hitIds [hitA, hitB, hitC]) e.chunk_id +
        wScore (3 / 10) 60 (hitIds [hitB, hitA, hitD]) e.chunk_id ∧
      e.dense_rank = rankIn (hitIds [hitA, hitB, hitC]) e.chunk_id ∧
      e.sparse_rank = rankIn (hitIds [hitB, hitA, hitD]) e.chunk_id) ∧
    (reciprocal_rank_fusion [hitA, hitB, hitC] [hitB, hitA, hitD] (7 / 10) (3 / 10) 60).Sorted
      scoreDesc ∧
    (reciprocal_rank_fusion [hitA, hitB, hitC] [hitB, hitA, hitD] (7 / 10) (3 / 10) 60).map
      (fun e => (e.chunk_id, e.score)) =
      [("A", 7 / 10 / 61 + 3 / 10 / 62), ("B", 7 / 10 / 62 + 3 / 10 / 61),
       ("C", 7 / 10 / 63), ("D", 3 / 10 / 63)] := by
  have hd : (hitIds [hitA, hitB, hitC]).Nodup := by decide
  have hs : (hitIds [hitB, hitA, hitD]).Nodup := by decide
  have hmain := rrf_fuses_ranked_lists [hitA, hitB, hitC] [hitB, hitA, hitD]
    (7 / 10) (3 / 10) hd hs
  refine ⟨⟨hd, hs⟩, hmain.1, hmain.2.2, ?_⟩
  norm_num +decide [reciprocal_rank_fusion, addDenseAux, addSparseAux, setEntry, denseEntry,
    bumpSparse, sparseOnlyEntry, hitA, hitB, hitC, hitD, List.insertionSort,
    List.orderedInsert, scoreDesc]

end RAGChat
